import Mathlib

/-!
Verification of bigutils: allocation-free marshalling and 256-bit truncation of `big.Int`

Shallow embedding of `utils.go`.

* A `big.Int` is its sign flag and its magnitude, a little-endian list of machine
  words (what `Bits()` returns).  Words and bytes are natural numbers; a word of a
  `UintSize`-bit platform is `< 2 ^ UintSize`.
* A byte buffer `[]byte` is a `List Nat`.  A store `buf[i] = v` with `i` out of range
  is the Go runtime panic `index out of range`; every function that stores into the
  buffer therefore returns `Except IndexPanic _`.
* `bits.UintSize` is a platform constant (32 or 64): it is an explicit parameter.
-/

namespace Bigutils

/-! ## Data model -/

/-- Model of `big.Int`: sign flag and magnitude (little-endian words). -/
structure BigInt where
  neg : Bool
  abs : List Nat
deriving DecidableEq, Repr

/-- Go runtime panic `index out of range [index] with length len(buf)`; `buf` is the
buffer as it was when the panic was raised. -/
structure IndexPanic where
  index : Nat
  buf : List Nat
deriving DecidableEq, Repr

/-- Method `nat.norm` of `math/big`: drops the zero words at the most-significant end. -/
def norm : List Nat → List Nat
  | [] => []
  | w :: ws =>
    match norm ws with
    | [] => if w = 0 then [] else [w]
    | r :: rs => w :: r :: rs

/-- Method `(*big.Int).Bits`: the magnitude as a little-endian word slice. -/
def BigInt.Bits (x : BigInt) : List Nat := x.abs

/-- Method `(*big.Int).SetBits`: `z.abs = nat(abs).norm(); z.neg = false`. -/
def BigInt.SetBits (_x : BigInt) (abs : List Nat) : BigInt :=
  { neg := false, abs := norm abs }

/-- Go conversion `byte(x)` of an unsigned word: the low eight bits. -/
def byte (x : Nat) : Nat := x % 256

/-- Go statement `buf[i] = v`, with its bounds check. -/
def store (buf : List Nat) (i : Nat) (v : Nat) : Except IndexPanic (List Nat) :=
  if i < buf.length then .ok (buf.set i v) else .error ⟨i, buf⟩

/-- Constant `_S = bits.UintSize / 8`, the word size in bytes. -/
def _S (UintSize : Nat) : Nat := UintSize / 8

/-- Function `MaxByteLen`: `len(b.Bits()) * _S`. -/
def MaxByteLen (UintSize : Nat) (b : BigInt) : Nat := b.Bits.length * _S UintSize

/-! ## `marshallBigintGeneric`

The loop variable `j` of the source is an `int` that runs through
`(_S-1)*8, ..., 8, 0, -8`.  It is carried here as `k = j/8 + 1`, the number of bytes of
the current word not yet visited: `j >= 0` is `k > 0`, `j -= 8` is `k - 1`, and the
shift `d >> j` under `j >= 0` is `d >>> (8 * (k - 1))`. -/

/-- First loop of `marshallBigintGeneric` (`for ; j >= 0; j -= 8`, with the `break`):
skips the zero bytes at the top of the most-significant word and stores its first
non-zero byte.  Returns the buffer, `i` and the counter `k` at loop exit. -/
def skipLoop (d : Nat) (buf : List Nat) (i : Nat) :
    Nat → Except IndexPanic (List Nat × Nat × Nat)
  | 0 => .ok (buf, i, 0)
  | k + 1 =>
    let data := byte (d >>> (8 * k))
    if data ≠ 0 then
      match store buf i data with
      | .error p => .error p
      | .ok buf1 => .ok (buf1, i + 1, k)
    else skipLoop d buf i k

/-- Loop at label `collect` (`for ; j >= 0; j -= 8 { buf[i] = byte(d >> j); i++ }`). -/
def collectLoop (d : Nat) : Nat → List Nat → Nat → Except IndexPanic (List Nat × Nat)
  | 0, buf, i => .ok (buf, i)
  | k + 1, buf, i =>
    match store buf i (byte (d >>> (8 * k))) with
    | .error p => .error p
    | .ok buf1 => collectLoop d k buf1 (i + 1)

/-- Tail of `marshallBigintGeneric` after a word is done: `zindex--; if zindex >= 0
{ d = z[zindex]; j = (_S-1)*8; goto collect }; return i`.  The argument `zindex` is
the value before the decrement. -/
def collectWords (S : Nat) (z : List Nat) :
    Nat → List Nat → Nat → Except IndexPanic (Nat × List Nat)
  | 0, buf, i => .ok (i, buf)
  | zindex + 1, buf, i =>
    match collectLoop (z.getD zindex 0) S buf i with
    | .error p => .error p
    | .ok (buf1, i1) => collectWords S z zindex buf1 i1

/-- Function `marshallBigintGeneric`, for a word size of `S` bytes. -/
def marshallBigintGeneric (S : Nat) (b : BigInt) (buf : List Nat) :
    Except IndexPanic (Nat × List Nat) :=
  let z := b.Bits
  if z.length = 0 then .ok (0, buf)
  else
    let zindex := z.length - 1
    let d := z.getD zindex 0
    match skipLoop d buf 0 S with
    | .error p => .error p
    | .ok (buf1, i1, k) =>
      match collectLoop d k buf1 i1 with
      | .error p => .error p
      | .ok (buf2, i2) => collectWords S z zindex buf2 i2

/-! ## `marshallBigint64bit` and `marshallBigint32bit`

Each label of the source is a function that runs from the label to the end of the
statement at label `h`; falling through is calling the next label. -/

/-- Label `h`: `buf[i], i = byte(d>>0), i+1`. -/
def label_h (d : Nat) (buf : List Nat) (i : Nat) : Except IndexPanic (List Nat × Nat) :=
  match store buf i (byte (d >>> 0)) with
  | .error p => .error p
  | .ok buf1 => .ok (buf1, i + 1)

/-- Label `g`: `buf[i], i = byte(d>>8), i+1`, then falls through to `h`. -/
def label_g (d : Nat) (buf : List Nat) (i : Nat) : Except IndexPanic (List Nat × Nat) :=
  match store buf i (byte (d >>> 8)) with
  | .error p => .error p
  | .ok buf1 => label_h d buf1 (i + 1)

/-- Label `f`: `buf[i], i = byte(d>>16), i+1`, then falls through to `g`. -/
def label_f (d : Nat) (buf : List Nat) (i : Nat) : Except IndexPanic (List Nat × Nat) :=
  match store buf i (byte (d >>> 16)) with
  | .error p => .error p
  | .ok buf1 => label_g d buf1 (i + 1)

/-- Label `e`: `buf[i], i = byte(d>>24), i+1`, then falls through to `f`. -/
def label_e (d : Nat) (buf : List Nat) (i : Nat) : Except IndexPanic (List Nat × Nat) :=
  match store buf i (byte (d >>> 24)) with
  | .error p => .error p
  | .ok buf1 => label_f d buf1 (i + 1)

/-- Label `d`: `buf[i], i = byte(d>>32), i+1`, then falls through to `e`. -/
def label_d (d : Nat) (buf : List Nat) (i : Nat) : Except IndexPanic (List Nat × Nat) :=
  match store buf i (byte (d >>> 32)) with
  | .error p => .error p
  | .ok buf1 => label_e d buf1 (i + 1)

/-- Label `c`: `buf[i], i = byte(d>>40), i+1`, then falls through to `d`. -/
def label_c (d : Nat) (buf : List Nat) (i : Nat) : Except IndexPanic (List Nat × Nat) :=
  match store buf i (byte (d >>> 40)) with
  | .error p => .error p
  | .ok buf1 => label_d d buf1 (i + 1)

/-- Label `b`: `buf[i], i = byte(d>>48), i+1`, then falls through to `c`. -/
def label_b (d : Nat) (buf : List Nat) (i : Nat) : Except IndexPanic (List Nat × Nat) :=
  match store buf i (byte (d >>> 48)) with
  | .error p => .error p
  | .ok buf1 => label_c d buf1 (i + 1)

/-- Label `a`: `buf[i], i = byte(d>>56), i+1`, then falls through to `b`. -/
def label_a (d : Nat) (buf : List Nat) (i : Nat) : Except IndexPanic (List Nat × Nat) :=
  match store buf i (byte (d >>> 56)) with
  | .error p => .error p
  | .ok buf1 => label_b d buf1 (i + 1)

/-- End of `marshallBigint64bit`, reached after label `h`:
`if zindex > 0 { zindex--; d = z[zindex]; goto a }; return i`. -/
def next64 (z : List Nat) : Nat → List Nat → Nat → Except IndexPanic (Nat × List Nat)
  | 0, buf, i => .ok (i, buf)
  | zindex + 1, buf, i =>
    match label_a (z.getD zindex 0) buf i with
    | .error p => .error p
    | .ok (buf1, i1) => next64 z zindex buf1 i1

/-- Function `marshallBigint64bit`. -/
def marshallBigint64bit (b : BigInt) (buf : List Nat) : Except IndexPanic (Nat × List Nat) :=
  let z := b.Bits
  if z.length = 0 then .ok (0, buf)
  else
    let i := 0
    let zindex := z.length - 1
    let d := z.getD zindex 0
    let word :=
      if byte (d >>> 56) ≠ 0 then label_a d buf i
      else if byte (d >>> 48) ≠ 0 then label_b d buf i
      else if byte (d >>> 40) ≠ 0 then label_c d buf i
      else if byte (d >>> 32) ≠ 0 then label_d d buf i
      else if byte (d >>> 24) ≠ 0 then label_e d buf i
      else if byte (d >>> 16) ≠ 0 then label_f d buf i
      else if byte (d >>> 8) ≠ 0 then label_g d buf i
      else label_h d buf i
    match word with
    | .error p => .error p
    | .ok (buf1, i1) => next64 z zindex buf1 i1

/-- End of `marshallBigint32bit`, reached after label `h`:
`if zindex > 0 { zindex--; d = z[zindex]; goto e }; return i`. -/
def next32 (z : List Nat) : Nat → List Nat → Nat → Except IndexPanic (Nat × List Nat)
  | 0, buf, i => .ok (i, buf)
  | zindex + 1, buf, i =>
    match label_e (z.getD zindex 0) buf i with
    | .error p => .error p
    | .ok (buf1, i1) => next32 z zindex buf1 i1

/-- Function `marshallBigint32bit`. -/
def marshallBigint32bit (b : BigInt) (buf : List Nat) : Except IndexPanic (Nat × List Nat) :=
  let z := b.Bits
  if z.length = 0 then .ok (0, buf)
  else
    let i := 0
    let zindex := z.length - 1
    let d := z.getD zindex 0
    let word :=
      if byte (d >>> 24) ≠ 0 then label_e d buf i
      else if byte (d >>> 16) ≠ 0 then label_f d buf i
      else if byte (d >>> 8) ≠ 0 then label_g d buf i
      else label_h d buf i
    match word with
    | .error p => .error p
    | .ok (buf1, i1) => next32 z zindex buf1 i1

/-- Function `MarshallBigInt`: dispatch on `bits.UintSize`. -/
def MarshallBigInt (UintSize : Nat) (b : BigInt) (buf : List Nat) :
    Except IndexPanic (Nat × List Nat) :=
  match UintSize with
  | 32 => marshallBigint32bit b buf
  | 64 => marshallBigint64bit b buf
  | _ => marshallBigintGeneric (_S UintSize) b buf

/-! ## `U256` -/

/-- Function `u256_64bit`: `if len := len(z); len > 4 { x.SetBits(z[len-4:]) }`. -/
def u256_64bit (x : BigInt) : BigInt :=
  let z := x.Bits
  if z.length > 4 then x.SetBits (z.drop (z.length - 4)) else x

/-- Function `u256_32bit`: `if len := len(z); len > 8 { x.SetBits(z[len-8:]) }`. -/
def u256_32bit (x : BigInt) : BigInt :=
  let z := x.Bits
  if z.length > 8 then x.SetBits (z.drop (z.length - 8)) else x

/-- Function `u256_generic`: `nWords := 256 / _S`, then as above. -/
def u256_generic (UintSize : Nat) (x : BigInt) : BigInt :=
  let z := x.Bits
  let nWords := 256 / _S UintSize
  if z.length > nWords then x.SetBits (z.drop (z.length - nWords)) else x

/-- Function `U256`: dispatch on `bits.UintSize`. -/
def U256 (UintSize : Nat) (b : BigInt) : BigInt :=
  if UintSize = 64 then u256_64bit b
  else if UintSize = 32 then u256_32bit b
  else u256_generic UintSize b

/-! ## Values and reference encodings -/

/-- Value of a little-endian sequence of `W`-bit words. -/
def wordsValue (W : Nat) : List Nat → Nat
  | [] => 0
  | w :: ws => w + 2 ^ W * wordsValue W ws

/-- Value of the magnitude of a `big.Int` on a `UintSize`-bit platform. -/
def BigInt.magnitude (UintSize : Nat) (x : BigInt) : Nat := wordsValue UintSize x.abs

/-- Value of a `big.Int`. -/
def BigInt.toInt (UintSize : Nat) (x : BigInt) : Int :=
  if x.neg then -(x.magnitude UintSize : Int) else (x.magnitude UintSize : Int)

/-- Test constant `tt256m1 = 2^256 - 1` of `utils_test.go`. -/
def tt256m1 : Nat := 2 ^ 256 - 1

/-- Test helper `u256_ReferenceImpl` of `utils_test.go` (`x.And(x, tt256m1)`), on the value
of a non-negative `x`. -/
def u256_ReferenceImpl (v : Nat) : Nat := v &&& tt256m1

/-- Canonical magnitude on a `UintSize`-bit platform: every word fits the word width and
the most-significant word, when there is one, is non-zero (zero is the empty sequence). -/
def Canonical (UintSize : Nat) (x : BigInt) : Prop :=
  (∀ w ∈ x.abs, w < 2 ^ UintSize) ∧ x.abs.getLast? ≠ some 0

/-- Minimal big-endian byte encoding of a natural number (what `big.Int.Bytes` returns for
a non-negative value): base-256 digits, most significant first, none for zero. -/
def minimalBigEndian (v : Nat) : List Nat := (Nat.digits 256 v).reverse

/-- Number of bits of a natural number (`big.Int.BitLen`), zero for zero. -/
def bitLength (v : Nat) : Nat := Nat.size v

/-- The most-significant word exists and its top byte is non-zero
(`byte(z[len(z)-1] >> (UintSize-8)) != 0`). -/
def topByteNonZero (UintSize : Nat) (b : BigInt) : Prop :=
  ∃ d, b.Bits.getLast? = some d ∧ byte (d >>> (UintSize - 8)) ≠ 0

instance (UintSize : Nat) (x : BigInt) : Decidable (Canonical UintSize x) := by
  unfold Canonical
  infer_instance

instance (UintSize : Nat) (b : BigInt) : Decidable (topByteNonZero UintSize b) :=
  match h : b.Bits.getLast? with
  | none => isFalse (fun ⟨_, hd, _⟩ => by rw [h] at hd; cases hd)
  | some d =>
    if hb : byte (d >>> (UintSize - 8)) ≠ 0 then isTrue ⟨d, h, hb⟩
    else isFalse (fun ⟨_, hd, hb2⟩ => by rw [h] at hd; cases hd; exact hb hb2)

/-- Error value `BufferTooSmall` of the interface
`marshal(magnitude, buffer) -> (bytesWritten, error)` that the specification gives the
marshaller.  `utils.go` declares no error value. -/
inductive MarshalError where
  | BufferTooSmall
deriving DecidableEq, Repr

/-- Error result that a call of a marshaller hands to its caller.  The Go signature is
`func(b *big.Int, buf []byte) int`: when the call returns, it returns the count alone,
and when a store panics the call does not return at all.  In neither case is there an
error result. -/
def returnedError : Except IndexPanic (Nat × List Nat) → Option MarshalError
  | .ok _ => none
  | .error _ => none

/-! ## Straight-line stores

The proofs describe every marshaller as one run of consecutive stores of a list of
bytes, `storeAll`, and then reason about that list. -/

/-- Consecutive stores `buf[i] = v0; buf[i+1] = v1; ...`, stopping at the first panic. -/
def storeAll : List Nat → List Nat → Nat → Except IndexPanic (List Nat × Nat)
  | [], buf, i => .ok (buf, i)
  | v :: vs, buf, i =>
    match store buf i v with
    | .error p => .error p
    | .ok buf1 => storeAll vs buf1 (i + 1)

/-- Return statement `return i` after a run of stores. -/
def finish : Except IndexPanic (List Nat × Nat) → Except IndexPanic (Nat × List Nat)
  | .error p => .error p
  | .ok (buf, i) => .ok (i, buf)

/-- The low `k` bytes of the word `d`, most significant first. -/
def wordBytes (d : Nat) : Nat → List Nat
  | 0 => []
  | k + 1 => byte (d >>> (8 * k)) :: wordBytes d k

/-- All bytes of a magnitude, most significant first, `S` bytes for each word. -/
def allBytes (S : Nat) (z : List Nat) : List Nat :=
  z.reverse.flatMap (fun w => wordBytes w S)

/-- The bytes of a magnitude with the leading zero bytes removed: the algorithm of
`big.Int.Bytes`. -/
def encoding (S : Nat) (z : List Nat) : List Nat :=
  (allBytes S z).dropWhile (fun v => decide (v = 0))

/-- Outcome of storing the bytes `enc` at the front of `buf`. -/
def written (enc buf : List Nat) : Except IndexPanic (Nat × List Nat) :=
  if enc.length ≤ buf.length then .ok (enc.length, enc ++ buf.drop enc.length)
  else .error ⟨buf.length, enc.take buf.length⟩

theorem storeAll_append (l1 l2 buf : List Nat) (i : Nat) :
    storeAll (l1 ++ l2) buf i =
      match storeAll l1 buf i with
      | .error p => .error p
      | .ok (buf1, i1) => storeAll l2 buf1 i1 := by
  induction l1 generalizing buf i with
  | nil => simp [storeAll]
  | cons v vs ih =>
    simp only [List.cons_append, storeAll]
    cases h : store buf i v with
    | error p => simp
    | ok buf1 => simp [ih]

theorem storeAll_split (pre l post : List Nat) :
    storeAll l (pre ++ post) pre.length =
      if l.length ≤ post.length then .ok (pre ++ l ++ post.drop l.length, pre.length + l.length)
      else .error ⟨pre.length + post.length, pre ++ l.take post.length⟩ := by
  induction l generalizing pre post with
  | nil => simp [storeAll]
  | cons v vs ih =>
    cases post with
    | nil => simp [storeAll, store]
    | cons x post =>
      have h1 : store (pre ++ x :: post) pre.length v = .ok ((pre ++ [v]) ++ post) := by
        simp [store]
      have h2 := ih (pre ++ [v]) post
      simp only [List.length_append, List.length_singleton] at h2
      simp only [storeAll, h1, h2, List.length_cons, Nat.add_le_add_iff_right]
      split <;> simp [Nat.add_assoc, Nat.add_comm 1]

theorem finish_storeAll (enc buf : List Nat) :
    finish (storeAll enc buf 0) = written enc buf := by
  have h := storeAll_split [] enc buf
  simp only [List.length_nil, List.nil_append, Nat.zero_add] at h
  rw [h, written]
  split <;> simp [finish]

/-! ## The marshallers as straight-line stores -/

theorem collectLoop_eq (d k : Nat) (buf : List Nat) (i : Nat) :
    collectLoop d k buf i = storeAll (wordBytes d k) buf i := by
  induction k generalizing buf i with
  | zero => rfl
  | succ k ih =>
    simp only [collectLoop, wordBytes, storeAll]
    cases store buf i (byte (d >>> (8 * k))) with
    | error p => rfl
    | ok buf1 => exact ih buf1 (i + 1)

theorem skip_collect_eq (d k : Nat) (buf : List Nat) (i : Nat) :
    (match skipLoop d buf i k with
      | .error p => .error p
      | .ok (buf1, i1, k1) => collectLoop d k1 buf1 i1) =
      storeAll ((wordBytes d k).dropWhile (fun v => decide (v = 0))) buf i := by
  induction k with
  | zero => rfl
  | succ k ih =>
    simp only [skipLoop, wordBytes]
    by_cases h : byte (d >>> (8 * k)) = 0
    · simp only [h, ne_eq, not_true_eq_false, if_false, List.dropWhile_cons, decide_True, if_true]
      exact ih
    · simp only [h, ne_eq, not_false_eq_true, if_true, List.dropWhile_cons, decide_False,
        storeAll]
      cases store buf i (byte (d >>> (8 * k))) with
      | error p => rfl
      | ok buf1 => exact collectLoop_eq d k buf1 (i + 1)

theorem label_h_eq (d : Nat) (buf : List Nat) (i : Nat) :
    label_h d buf i = storeAll (wordBytes d 1) buf i := by
  simp only [label_h, wordBytes, storeAll]

theorem label_g_eq (d : Nat) (buf : List Nat) (i : Nat) :
    label_g d buf i = storeAll (wordBytes d 2) buf i := by
  rw [label_g, wordBytes, storeAll]
  cases store buf i (byte (d >>> 8)) with
  | error p => rfl
  | ok buf1 => exact label_h_eq d buf1 (i + 1)

theorem label_f_eq (d : Nat) (buf : List Nat) (i : Nat) :
    label_f d buf i = storeAll (wordBytes d 3) buf i := by
  rw [label_f, wordBytes, storeAll]
  cases store buf i (byte (d >>> 16)) with
  | error p => rfl
  | ok buf1 => exact label_g_eq d buf1 (i + 1)

theorem label_e_eq (d : Nat) (buf : List Nat) (i : Nat) :
    label_e d buf i = storeAll (wordBytes d 4) buf i := by
  rw [label_e, wordBytes, storeAll]
  cases store buf i (byte (d >>> 24)) with
  | error p => rfl
  | ok buf1 => exact label_f_eq d buf1 (i + 1)

theorem label_d_eq (d : Nat) (buf : List Nat) (i : Nat) :
    label_d d buf i = storeAll (wordBytes d 5) buf i := by
  rw [label_d, wordBytes, storeAll]
  cases store buf i (byte (d >>> 32)) with
  | error p => rfl
  | ok buf1 => exact label_e_eq d buf1 (i + 1)

theorem label_c_eq (d : Nat) (buf : List Nat) (i : Nat) :
    label_c d buf i = storeAll (wordBytes d 6) buf i := by
  rw [label_c, wordBytes, storeAll]
  cases store buf i (byte (d >>> 40)) with
  | error p => rfl
  | ok buf1 => exact label_d_eq d buf1 (i + 1)

theorem label_b_eq (d : Nat) (buf : List Nat) (i : Nat) :
    label_b d buf i = storeAll (wordBytes d 7) buf i := by
  rw [label_b, wordBytes, storeAll]
  cases store buf i (byte (d >>> 48)) with
  | error p => rfl
  | ok buf1 => exact label_c_eq d buf1 (i + 1)

theorem label_a_eq (d : Nat) (buf : List Nat) (i : Nat) :
    label_a d buf i = storeAll (wordBytes d 8) buf i := by
  rw [label_a, wordBytes, storeAll]
  cases store buf i (byte (d >>> 56)) with
  | error p => rfl
  | ok buf1 => exact label_b_eq d buf1 (i + 1)

theorem allBytes_take_succ (S : Nat) (z : List Nat) (n : Nat) (h : n < z.length) :
    allBytes S (z.take (n + 1)) = wordBytes (z.getD n 0) S ++ allBytes S (z.take n) := by
  have h1 : z.take (n + 1) = z.take n ++ [z.getD n 0] := by
    rw [List.take_succ, List.getD_eq_getElem?_getD, List.getElem?_eq_getElem h]
    rfl
  simp [allBytes, h1]

theorem collectWords_eq (S : Nat) (z : List Nat) (n : Nat) (h : n ≤ z.length)
    (buf : List Nat) (i : Nat) :
    collectWords S z n buf i = finish (storeAll (allBytes S (z.take n)) buf i) := by
  induction n generalizing buf i with
  | zero => rfl
  | succ n ih =>
    rw [allBytes_take_succ S z n h, storeAll_append, collectWords, collectLoop_eq]
    cases storeAll (wordBytes (z.getD n 0) S) buf i with
    | error p => rfl
    | ok r => exact ih (Nat.le_of_succ_le h) r.1 r.2

theorem next64_eq (z : List Nat) (n : Nat) (h : n ≤ z.length) (buf : List Nat) (i : Nat) :
    next64 z n buf i = finish (storeAll (allBytes 8 (z.take n)) buf i) := by
  induction n generalizing buf i with
  | zero => rfl
  | succ n ih =>
    rw [allBytes_take_succ 8 z n h, storeAll_append, next64, label_a_eq]
    cases storeAll (wordBytes (z.getD n 0) 8) buf i with
    | error p => rfl
    | ok r => exact ih (Nat.le_of_succ_le h) r.1 r.2

theorem next32_eq (z : List Nat) (n : Nat) (h : n ≤ z.length) (buf : List Nat) (i : Nat) :
    next32 z n buf i = finish (storeAll (allBytes 4 (z.take n)) buf i) := by
  induction n generalizing buf i with
  | zero => rfl
  | succ n ih =>
    rw [allBytes_take_succ 4 z n h, storeAll_append, next32, label_e_eq]
    cases storeAll (wordBytes (z.getD n 0) 4) buf i with
    | error p => rfl
    | ok r => exact ih (Nat.le_of_succ_le h) r.1 r.2

/-! ## Bytes and values -/

theorem wordBytes_length (d k : Nat) : (wordBytes d k).length = k := by
  induction k with
  | zero => rfl
  | succ k ih => simp [wordBytes, ih]

theorem wordBytes_lt (d k : Nat) : ∀ v ∈ wordBytes d k, v < 256 := by
  induction k with
  | zero => simp [wordBytes]
  | succ k ih =>
    intro v hv
    simp only [wordBytes, List.mem_cons] at hv
    rcases hv with hv | hv
    · subst hv
      exact Nat.mod_lt _ (by norm_num)
    · exact ih v hv

theorem wordBytes_value (d k : Nat) :
    Nat.ofDigits 256 (wordBytes d k).reverse = d % 256 ^ k := by
  induction k with
  | zero => simp [wordBytes, Nat.mod_one]
  | succ k ih =>
    have h8 : (2 : Nat) ^ (8 * k) = 256 ^ k := by
      rw [pow_mul]
      norm_num
    simp only [wordBytes, List.reverse_cons, Nat.ofDigits_append, Nat.ofDigits_singleton, ih,
      List.length_reverse, wordBytes_length, byte, Nat.shiftRight_eq_div_pow, h8]
    exact (Nat.mod_pow_succ).symm

theorem wordBytes_nonzero (d S : Nat) (h0 : d ≠ 0) (hlt : d < 2 ^ (8 * S)) :
    ∃ v ∈ wordBytes d S, v ≠ 0 := by
  by_contra hall
  push_neg at hall
  have hz : Nat.ofDigits 256 (wordBytes d S).reverse = 0 := by
    have : ∀ L : List Nat, (∀ v ∈ L, v = 0) → Nat.ofDigits 256 L = 0 := by
      intro L
      induction L with
      | nil => intro _; rfl
      | cons x xs ih =>
        intro hx
        rw [Nat.ofDigits_cons, hx x (List.mem_cons_self x xs),
          ih (fun v hv => hx v (List.mem_cons_of_mem x hv))]
    exact this _ (fun v hv => hall v (List.mem_reverse.mp hv))
  rw [wordBytes_value] at hz
  have h8 : (2 : Nat) ^ (8 * S) = 256 ^ S := by
    rw [pow_mul]
    norm_num
  rw [h8] at hlt
  rw [Nat.mod_eq_of_lt hlt] at hz
  exact h0 hz

theorem allBytes_cons (S w : Nat) (ws : List Nat) :
    allBytes S (w :: ws) = allBytes S ws ++ wordBytes w S := by
  simp [allBytes]

theorem allBytes_length (S : Nat) (z : List Nat) : (allBytes S z).length = z.length * S := by
  induction z with
  | nil => simp [allBytes]
  | cons w ws ih =>
    rw [allBytes_cons, List.length_append, ih, wordBytes_length, List.length_cons]
    ring

theorem allBytes_lt (S : Nat) (z : List Nat) : ∀ v ∈ allBytes S z, v < 256 := by
  intro v hv
  simp only [allBytes, List.mem_flatMap, List.mem_reverse] at hv
  obtain ⟨w, _, hw⟩ := hv
  exact wordBytes_lt w S v hw

theorem allBytes_value (S : Nat) (z : List Nat) (hz : ∀ w ∈ z, w < 2 ^ (8 * S)) :
    Nat.ofDigits 256 (allBytes S z).reverse = wordsValue (8 * S) z := by
  have h8 : (2 : Nat) ^ (8 * S) = 256 ^ S := by
    rw [pow_mul]
    norm_num
  induction z with
  | nil => simp [allBytes, wordsValue]
  | cons w ws ih =>
    have hw : w < 256 ^ S := h8 ▸ hz w (List.mem_cons_self w ws)
    rw [allBytes_cons, List.reverse_append, Nat.ofDigits_append, wordBytes_value,
      ih (fun v hv => hz v (List.mem_cons_of_mem w hv)), List.length_reverse,
      wordBytes_length, Nat.mod_eq_of_lt hw, wordsValue, h8]

theorem minimalBigEndian_ofDigits (L : List Nat) (hL : ∀ v ∈ L, v < 256) :
    minimalBigEndian (Nat.ofDigits 256 L.reverse) = L.dropWhile (fun v => decide (v = 0)) := by
  induction L with
  | nil => simp [minimalBigEndian]
  | cons x xs ih =>
    by_cases hx : x = 0
    · subst hx
      have hxs := ih (fun v hv => hL v (List.mem_cons_of_mem 0 hv))
      simp only [List.reverse_cons, Nat.ofDigits_append, Nat.ofDigits_singleton, Nat.mul_zero,
        Nat.add_zero, List.dropWhile_cons, decide_True, if_true]
      exact hxs
    · have hd : Nat.digits 256 (Nat.ofDigits 256 (x :: xs).reverse) = (x :: xs).reverse := by
        apply Nat.digits_ofDigits 256 (by norm_num)
        · intro v hv
          exact hL v (List.mem_reverse.mp hv)
        · intro _
          simpa using hx
      rw [minimalBigEndian, hd, List.reverse_reverse, List.dropWhile_cons]
      simp [hx]

theorem encoding_eq (S : Nat) (z : List Nat) (hz : ∀ w ∈ z, w < 2 ^ (8 * S)) :
    encoding S z = minimalBigEndian (wordsValue (8 * S) z) := by
  rw [← allBytes_value S z hz, minimalBigEndian_ofDigits _ (allBytes_lt S z)]
  rfl

/-! ## Each marshaller stores the minimal encoding -/

theorem dropWhile_append_left (p : Nat → Bool) (l1 l2 : List Nat)
    (h : ∃ v ∈ l1, p v = false) :
    (l1 ++ l2).dropWhile p = l1.dropWhile p ++ l2 := by
  induction l1 with
  | nil => simp at h
  | cons x xs ih =>
    cases hx : p x with
    | false => simp [List.dropWhile_cons, hx]
    | true =>
      obtain ⟨v, hv, hpv⟩ := h
      have hv2 : v ∈ xs := by
        rcases List.mem_cons.mp hv with rfl | hv2
        · rw [hx] at hpv
          cases hpv
        · exact hv2
      simp only [List.cons_append, List.dropWhile_cons, hx, if_true]
      exact ih ⟨v, hv2, hpv⟩

theorem top_word (U : Nat) (b : BigInt) (hc : Canonical U b) (hne : ¬ b.Bits.length = 0) :
    b.Bits.getD (b.Bits.length - 1) 0 ≠ 0 ∧ b.Bits.getD (b.Bits.length - 1) 0 < 2 ^ U := by
  obtain ⟨hw, hl⟩ := hc
  have hlt : b.abs.length - 1 < b.abs.length := by
    have : b.abs.length ≠ 0 := hne
    omega
  have hget : b.abs.getLast? = some (b.abs.getD (b.abs.length - 1) 0) := by
    rw [List.getLast?_eq_getElem?, List.getD_eq_getElem?_getD, List.getElem?_eq_getElem hlt]
    rfl
  have hmem : b.abs.getD (b.abs.length - 1) 0 ∈ b.abs := by
    rw [List.getD_eq_getElem?_getD, List.getElem?_eq_getElem hlt]
    exact List.getElem_mem hlt
  refine ⟨?_, hw _ hmem⟩
  intro h0
  apply hl
  rw [hget]
  exact congrArg some h0

theorem encoding_top (S : Nat) (z : List Nat) (hne : ¬ z.length = 0)
    (h0 : z.getD (z.length - 1) 0 ≠ 0) (hlt : z.getD (z.length - 1) 0 < 2 ^ (8 * S)) :
    encoding S z =
      (wordBytes (z.getD (z.length - 1) 0) S).dropWhile (fun v => decide (v = 0)) ++
        allBytes S (z.take (z.length - 1)) := by
  have hn : z.length - 1 < z.length := by omega
  have h1 := allBytes_take_succ S z (z.length - 1) hn
  have h2 : z.length - 1 + 1 = z.length := by omega
  rw [h2, List.take_length] at h1
  rw [encoding, h1]
  apply dropWhile_append_left
  obtain ⟨v, hv, hv0⟩ := wordBytes_nonzero _ S h0 hlt
  exact ⟨v, hv, by simp [hv0]⟩

theorem marshallBigintGeneric_eq (S : Nat) (b : BigInt) (hc : Canonical (8 * S) b)
    (buf : List Nat) :
    marshallBigintGeneric S b buf = written (encoding S b.Bits) buf := by
  rw [← finish_storeAll]
  by_cases hne : b.Bits.length = 0
  · have : b.Bits = [] := List.length_eq_zero.mp hne
    simp [marshallBigintGeneric, this, encoding, allBytes, storeAll, finish]
  · obtain ⟨h0, hlt⟩ := top_word (8 * S) b hc hne
    rw [encoding_top S b.Bits hne h0 hlt, storeAll_append, ← skip_collect_eq]
    simp only [marshallBigintGeneric, hne, if_false]
    cases skipLoop (b.Bits.getD (b.Bits.length - 1) 0) buf 0 S with
    | error p => rfl
    | ok r =>
      obtain ⟨buf1, i1, k⟩ := r
      simp only []
      cases collectLoop (b.Bits.getD (b.Bits.length - 1) 0) k buf1 i1 with
      | error p => rfl
      | ok r2 => exact collectWords_eq S b.Bits _ (Nat.sub_le _ _) r2.1 r2.2

theorem switch64_eq (d : Nat) (buf : List Nat) (i : Nat) (h : ∃ v ∈ wordBytes d 8, v ≠ 0) :
    (if byte (d >>> 56) ≠ 0 then label_a d buf i
      else if byte (d >>> 48) ≠ 0 then label_b d buf i
      else if byte (d >>> 40) ≠ 0 then label_c d buf i
      else if byte (d >>> 32) ≠ 0 then label_d d buf i
      else if byte (d >>> 24) ≠ 0 then label_e d buf i
      else if byte (d >>> 16) ≠ 0 then label_f d buf i
      else if byte (d >>> 8) ≠ 0 then label_g d buf i
      else label_h d buf i) =
      storeAll ((wordBytes d 8).dropWhile (fun v => decide (v = 0))) buf i := by
  simp only [label_a_eq, label_b_eq, label_c_eq, label_d_eq, label_e_eq, label_f_eq,
    label_g_eq, label_h_eq]
  simp only [wordBytes, Nat.reduceMul, List.mem_cons, List.mem_nil_iff, or_false] at h ⊢
  split_ifs with h7 h6 h5 h4 h3 h2 h1 <;> simp_all [List.dropWhile_cons]

theorem switch32_eq (d : Nat) (buf : List Nat) (i : Nat) (h : ∃ v ∈ wordBytes d 4, v ≠ 0) :
    (if byte (d >>> 24) ≠ 0 then label_e d buf i
      else if byte (d >>> 16) ≠ 0 then label_f d buf i
      else if byte (d >>> 8) ≠ 0 then label_g d buf i
      else label_h d buf i) =
      storeAll ((wordBytes d 4).dropWhile (fun v => decide (v = 0))) buf i := by
  simp only [label_e_eq, label_f_eq, label_g_eq, label_h_eq]
  simp only [wordBytes, Nat.reduceMul, List.mem_cons, List.mem_nil_iff, or_false] at h ⊢
  split_ifs with h3 h2 h1 <;> simp_all [List.dropWhile_cons]

theorem marshallBigint64bit_eq (b : BigInt) (hc : Canonical 64 b) (buf : List Nat) :
    marshallBigint64bit b buf = written (encoding 8 b.Bits) buf := by
  rw [← finish_storeAll]
  by_cases hne : b.Bits.length = 0
  · have : b.Bits = [] := List.length_eq_zero.mp hne
    simp [marshallBigint64bit, this, encoding, allBytes, storeAll, finish]
  · obtain ⟨h0, hlt⟩ := top_word 64 b hc hne
    rw [encoding_top 8 b.Bits hne h0 hlt, storeAll_append,
      ← switch64_eq _ buf 0 (wordBytes_nonzero _ 8 h0 hlt)]
    simp only [marshallBigint64bit, hne, if_false]
    split
    · rfl
    · exact next64_eq b.Bits _ (Nat.sub_le _ _) _ _

theorem marshallBigint32bit_eq (b : BigInt) (hc : Canonical 32 b) (buf : List Nat) :
    marshallBigint32bit b buf = written (encoding 4 b.Bits) buf := by
  rw [← finish_storeAll]
  by_cases hne : b.Bits.length = 0
  · have : b.Bits = [] := List.length_eq_zero.mp hne
    simp [marshallBigint32bit, this, encoding, allBytes, storeAll, finish]
  · obtain ⟨h0, hlt⟩ := top_word 32 b hc hne
    rw [encoding_top 4 b.Bits hne h0 hlt, storeAll_append,
      ← switch32_eq _ buf 0 (wordBytes_nonzero _ 4 h0 hlt)]
    simp only [marshallBigint32bit, hne, if_false]
    split
    · rfl
    · exact next32_eq b.Bits _ (Nat.sub_le _ _) _ _

theorem MarshallBigInt_eq (U : Nat) (hU : U = 32 ∨ U = 64) (b : BigInt) (hc : Canonical U b)
    (buf : List Nat) :
    MarshallBigInt U b buf = written (minimalBigEndian (b.magnitude U)) buf := by
  rcases hU with rfl | rfl
  · show marshallBigint32bit b buf = _
    rw [marshallBigint32bit_eq b hc, encoding_eq 4 b.Bits hc.1]
    rfl
  · show marshallBigint64bit b buf = _
    rw [marshallBigint64bit_eq b hc, encoding_eq 8 b.Bits hc.1]
    rfl

theorem marshallBigintGeneric_written (U : Nat) (hU : U = 32 ∨ U = 64) (b : BigInt)
    (hc : Canonical U b) (buf : List Nat) :
    marshallBigintGeneric (_S U) b buf = written (minimalBigEndian (b.magnitude U)) buf := by
  rcases hU with rfl | rfl
  · show marshallBigintGeneric 4 b buf = _
    rw [marshallBigintGeneric_eq 4 b hc, encoding_eq 4 b.Bits hc.1]
    rfl
  · show marshallBigintGeneric 8 b buf = _
    rw [marshallBigintGeneric_eq 8 b hc, encoding_eq 8 b.Bits hc.1]
    rfl

/-! ## Length of the minimal encoding -/

theorem minimal_length_le (U : Nat) (hU : U = 32 ∨ U = 64) (b : BigInt) (hc : Canonical U b) :
    (minimalBigEndian (b.magnitude U)).length ≤ MaxByteLen U b := by
  have key : ∀ S : Nat, (encoding S b.Bits).length ≤ b.Bits.length * S := by
    intro S
    rw [← allBytes_length S b.Bits]
    exact (List.dropWhile_sublist _).length_le
  rcases hU with rfl | rfl
  · have h := key 4
    rw [encoding_eq 4 b.Bits hc.1] at h
    exact h
  · have h := key 8
    rw [encoding_eq 8 b.Bits hc.1] at h
    exact h

theorem dropWhile_wordBytes_length (d k : Nat) :
    ((wordBytes d (k + 1)).dropWhile (fun v => decide (v = 0))).length = k + 1 ↔
      byte (d >>> (8 * k)) ≠ 0 := by
  rw [wordBytes, List.dropWhile_cons]
  by_cases h : byte (d >>> (8 * k)) = 0
  · have hle : ((wordBytes d k).dropWhile (fun v => decide (v = 0))).length ≤ k := by
      have := (List.dropWhile_sublist (fun v => decide (v = 0)) (l := wordBytes d k)).length_le
      rwa [wordBytes_length] at this
    simp only [h, decide_True, if_true, ne_eq, not_true_eq_false, iff_false]
    omega
  · simp [h, wordBytes_length]

theorem encoding_length_top (S : Nat) (b : BigInt) (hc : Canonical (8 * S) b)
    (hne : ¬ b.Bits.length = 0) :
    (encoding S b.Bits).length =
      ((wordBytes (b.Bits.getD (b.Bits.length - 1) 0) S).dropWhile
        (fun v => decide (v = 0))).length + (b.Bits.length - 1) * S := by
  obtain ⟨h0, hlt⟩ := top_word (8 * S) b hc hne
  rw [encoding_top S b.Bits hne h0 hlt, List.length_append, allBytes_length,
    List.length_take]
  congr 2
  omega

theorem dropWhile_wordBytes_pos (d S : Nat) (h0 : d ≠ 0) (hlt : d < 2 ^ (8 * S)) :
    0 < ((wordBytes d S).dropWhile (fun v => decide (v = 0))).length := by
  obtain ⟨v, hv, hv0⟩ := wordBytes_nonzero d S h0 hlt
  apply List.length_pos.mpr
  intro hnil
  have hall := List.dropWhile_eq_nil_iff.mp hnil v hv
  simp only [decide_eq_true_eq] at hall
  exact hv0 hall

theorem encoding_length_ge (S : Nat) (b : BigInt) (hc : Canonical (8 * S) b)
    (hne : ¬ b.Bits.length = 0) :
    b.Bits.length * S ≤ (encoding S b.Bits).length + (S - 1) := by
  obtain ⟨h0, hlt⟩ := top_word (8 * S) b hc hne
  have hpos := dropWhile_wordBytes_pos _ S h0 hlt
  rw [encoding_length_top S b hc hne]
  have hsplit : b.Bits.length * S = (b.Bits.length - 1) * S + S := by
    have h1 : b.Bits.length = (b.Bits.length - 1) + 1 := by omega
    conv_lhs => rw [h1]
    ring
  omega

theorem encoding_length_eq_iff (S : Nat) (b : BigInt) (hc : Canonical (8 * (S + 1)) b)
    (hne : ¬ b.Bits.length = 0) :
    (encoding (S + 1) b.Bits).length = b.Bits.length * (S + 1) ↔
      byte (b.Bits.getD (b.Bits.length - 1) 0 >>> (8 * S)) ≠ 0 := by
  rw [encoding_length_top (S + 1) b hc hne, ← dropWhile_wordBytes_length]
  have hsplit : b.Bits.length * (S + 1) = (b.Bits.length - 1) * (S + 1) + (S + 1) := by
    have h1 : b.Bits.length = (b.Bits.length - 1) + 1 := by omega
    conv_lhs => rw [h1]
    ring
  omega

theorem topByteNonZero_iff (U : Nat) (b : BigInt) (hne : ¬ b.Bits.length = 0) :
    topByteNonZero U b ↔ byte (b.Bits.getD (b.Bits.length - 1) 0 >>> (U - 8)) ≠ 0 := by
  have hlt : b.Bits.length - 1 < b.Bits.length := by omega
  have hget : b.Bits.getLast? = some (b.Bits.getD (b.Bits.length - 1) 0) := by
    rw [List.getLast?_eq_getElem?, List.getD_eq_getElem?_getD, List.getElem?_eq_getElem hlt]
    rfl
  unfold topByteNonZero
  rw [hget]
  constructor
  · rintro ⟨d, hd, hb⟩
    cases hd
    exact hb
  · intro hb
    exact ⟨_, rfl, hb⟩

theorem minimal_length_ge (U : Nat) (hU : U = 32 ∨ U = 64) (b : BigInt) (hc : Canonical U b)
    (hne : ¬ b.Bits.length = 0) :
    MaxByteLen U b ≤ (minimalBigEndian (b.magnitude U)).length + (U / 8 - 1) := by
  rcases hU with rfl | rfl
  · have h := encoding_length_ge 4 b hc hne
    rw [encoding_eq 4 b.Bits hc.1] at h
    exact h
  · have h := encoding_length_ge 8 b hc hne
    rw [encoding_eq 8 b.Bits hc.1] at h
    exact h

theorem minimal_length_eq_iff (U : Nat) (hU : U = 32 ∨ U = 64) (b : BigInt)
    (hc : Canonical U b) (hne : ¬ b.Bits.length = 0) :
    (minimalBigEndian (b.magnitude U)).length = MaxByteLen U b ↔ topByteNonZero U b := by
  rw [topByteNonZero_iff U b hne]
  rcases hU with rfl | rfl
  · have h := encoding_length_eq_iff 3 b hc hne
    rw [encoding_eq 4 b.Bits hc.1] at h
    exact h
  · have h := encoding_length_eq_iff 7 b hc hne
    rw [encoding_eq 8 b.Bits hc.1] at h
    exact h

theorem minimal_length_zero (v : Nat) : (minimalBigEndian v).length = 0 ↔ v = 0 := by
  rw [minimalBigEndian, List.length_reverse, List.length_eq_zero]
  exact Nat.digits_eq_nil_iff_eq_zero

theorem minimal_length_bits (v : Nat) :
    (minimalBigEndian v).length = (bitLength v + 7) / 8 := by
  rw [minimalBigEndian, List.length_reverse, bitLength]
  by_cases hv : v = 0
  · subst hv
    simp
  · have hup : v < 256 ^ (Nat.digits 256 v).length :=
      Nat.lt_base_pow_length_digits (by norm_num)
    have hlow : 256 ^ (Nat.digits 256 v).length ≤ 256 * v :=
      Nat.base_pow_length_digits_le 256 v (by norm_num) hv
    have hpos : 0 < (Nat.digits 256 v).length :=
      List.length_pos.mpr (Nat.digits_ne_nil_iff_ne_zero.mpr hv)
    obtain ⟨L, hL⟩ : ∃ L, (Nat.digits 256 v).length = L + 1 := ⟨_, (Nat.succ_pred_eq_of_pos hpos).symm⟩
    rw [hL] at hup hlow ⊢
    have h256 : ∀ n : Nat, (256 : Nat) ^ n = 2 ^ (8 * n) := by
      intro n
      rw [pow_mul]
      norm_num
    have h1 : Nat.size v ≤ 8 * (L + 1) := Nat.size_le.mpr (by rw [← h256]; exact hup)
    have h2 : 8 * L < Nat.size v := by
      apply Nat.lt_size.mpr
      rw [← h256]
      rw [pow_succ] at hlow
      have : 256 ^ L * 256 ≤ v * 256 := by rw [Nat.mul_comm v]; exact hlow
      exact Nat.le_of_mul_le_mul_right this (by norm_num)
    omega

theorem minimal_head (v : Nat) (hv : v ≠ 0) :
    ∃ x, (minimalBigEndian v).head? = some x ∧ x ≠ 0 := by
  have hne : Nat.digits 256 v ≠ [] := Nat.digits_ne_nil_iff_ne_zero.mpr hv
  refine ⟨(Nat.digits 256 v).getLast hne, ?_, Nat.getLast_digit_ne_zero 256 hv⟩
  rw [minimalBigEndian, List.head?_reverse, List.getLast?_eq_getLast _ hne]

theorem written_ok (enc buf : List Nat) (h : enc.length ≤ buf.length) :
    written enc buf = .ok (enc.length, enc ++ buf.drop enc.length) := by
  simp [written, h]

theorem written_error (enc buf : List Nat) (h : buf.length < enc.length) :
    written enc buf = .error ⟨buf.length, enc.take buf.length⟩ := by
  simp [written, Nat.not_le.mpr h]

/-! ## Truncation -/

theorem norm_length_le (z : List Nat) : (norm z).length ≤ z.length := by
  induction z with
  | nil => simp [norm]
  | cons w ws ih =>
    rw [norm]
    cases h : norm ws with
    | nil =>
      simp only []
      split <;> simp
    | cons r rs =>
      rw [h] at ih
      simpa using ih

theorem keepLast_idem (n : Nat) (x : BigInt) (y : BigInt)
    (hy : y = if x.Bits.length > n then x.SetBits (x.Bits.drop (x.Bits.length - n)) else x) :
    (if y.Bits.length > n then y.SetBits (y.Bits.drop (y.Bits.length - n)) else y) = y := by
  have hlen : ¬ y.Bits.length > n := by
    rw [hy]
    split
    · have h1 := norm_length_le (x.Bits.drop (x.Bits.length - n))
      rw [List.length_drop] at h1
      show ¬ (norm (x.Bits.drop (x.Bits.length - n))).length > n
      omega
    · assumption
  rw [if_neg hlen]

theorem u256_64bit_idem (x : BigInt) : u256_64bit (u256_64bit x) = u256_64bit x :=
  keepLast_idem 4 x (u256_64bit x) rfl

theorem u256_32bit_idem (x : BigInt) : u256_32bit (u256_32bit x) = u256_32bit x :=
  keepLast_idem 8 x (u256_32bit x) rfl

theorem u256_generic_idem (U : Nat) (x : BigInt) :
    u256_generic U (u256_generic U x) = u256_generic U x :=
  keepLast_idem (256 / _S U) x (u256_generic U x) rfl

/-! ## Properties of the specification -/

/-- C1: on a 32- or 64-bit platform, for every canonical big integer `b` (the sign is not
read) and every buffer with `len(buf) >= MaxByteLen(b)`, `MarshallBigInt(b, buf)` returns
`n` and leaves in `buf[0..n)` the minimal big-endian byte encoding of the value of `b`;
256 is written as `[0x01, 0x00]`. -/
theorem C1_marshal_minimal_encoding (U : Nat) (hU : U = 32 ∨ U = 64) (b : BigInt)
    (hc : Canonical U b) (buf : List Nat) (hbuf : MaxByteLen U b ≤ buf.length) :
    (∃ n buf1, MarshallBigInt U b buf = .ok (n, buf1) ∧
        buf1.take n = minimalBigEndian (b.magnitude U)) ∧
      MarshallBigInt U ⟨false, [256]⟩ (List.replicate 8 170) =
        .ok (2, [1, 0, 170, 170, 170, 170, 170, 170]) := by
  constructor
  · have hle := Nat.le_trans (minimal_length_le U hU b hc) hbuf
    refine ⟨_, _, (MarshallBigInt_eq U hU b hc buf).trans (written_ok _ buf hle), ?_⟩
    simp
  · rcases hU with rfl | rfl <;> rfl

theorem C1_marshal_minimal_encoding_witness :
    (64 = 32 ∨ 64 = 64) ∧ Canonical 64 ⟨false, [5, 2 ^ 63 + 7]⟩ ∧
      MaxByteLen 64 ⟨false, [5, 2 ^ 63 + 7]⟩ ≤ (List.replicate 16 170).length ∧
      ((∃ n buf1, MarshallBigInt 64 ⟨false, [5, 2 ^ 63 + 7]⟩ (List.replicate 16 170) =
            .ok (n, buf1) ∧
          buf1.take n = minimalBigEndian (BigInt.magnitude 64 ⟨false, [5, 2 ^ 63 + 7]⟩)) ∧
        MarshallBigInt 64 ⟨false, [256]⟩ (List.replicate 8 170) =
          .ok (2, [1, 0, 170, 170, 170, 170, 170, 170])) :=
  ⟨Or.inr rfl, by decide, by decide,
    C1_marshal_minimal_encoding 64 (Or.inr rfl) ⟨false, [5, 2 ^ 63 + 7]⟩ (by decide)
      (List.replicate 16 170) (by decide)⟩

/-- C2: evaluation of `U256` at `x = 2^256`.  On a 64-bit platform `Bits()` is
`[0, 0, 0, 0, 1]`; the code keeps `z[1:]`, the four most-significant words, so the value
after the call is `2^192`, whereas `2^256 AND (2^256 - 1)`, the result of the reference
implementation of the test, is `0`.  On a 32-bit platform the value after the call is
`2^224`. -/
theorem C2_U256_at_two_pow_256 :
    BigInt.magnitude 64 ⟨false, [0, 0, 0, 0, 1]⟩ = 2 ^ 256 ∧
      U256 64 ⟨false, [0, 0, 0, 0, 1]⟩ = ⟨false, [0, 0, 0, 1]⟩ ∧
      (U256 64 ⟨false, [0, 0, 0, 0, 1]⟩).magnitude 64 = 2 ^ 192 ∧
      u256_ReferenceImpl (2 ^ 256) = 0 ∧
      (U256 64 ⟨false, [0, 0, 0, 0, 1]⟩).magnitude 64 ≠ u256_ReferenceImpl (2 ^ 256) ∧
      BigInt.magnitude 32 ⟨false, [0, 0, 0, 0, 0, 0, 0, 0, 1]⟩ = 2 ^ 256 ∧
      (U256 32 ⟨false, [0, 0, 0, 0, 0, 0, 0, 0, 1]⟩).magnitude 32 = 2 ^ 224 := by
  refine ⟨by decide, by decide, by decide, by decide, by decide, by decide, by decide⟩

/-- C3: for every canonical magnitude and every buffer that can hold the minimal
encoding, the count returned by `MarshallBigInt` is `ceil(bitLength / 8)`; it is zero
exactly when the value is zero, and when it is positive the first byte written is
non-zero. -/
theorem C3_returned_count_is_minimal_length (U : Nat) (hU : U = 32 ∨ U = 64) (b : BigInt)
    (hc : Canonical U b) (buf : List Nat)
    (hbuf : (minimalBigEndian (b.magnitude U)).length ≤ buf.length) :
    ∃ n buf1, MarshallBigInt U b buf = .ok (n, buf1) ∧
      n = (bitLength (b.magnitude U) + 7) / 8 ∧
      (n = 0 ↔ b.magnitude U = 0) ∧
      (0 < n → ∃ v, buf1.head? = some v ∧ v ≠ 0) := by
  refine ⟨_, _, (MarshallBigInt_eq U hU b hc buf).trans (written_ok _ buf hbuf),
    minimal_length_bits _, minimal_length_zero _, ?_⟩
  intro hpos
  have hv : b.magnitude U ≠ 0 := fun h0 => by
    have := (minimal_length_zero (b.magnitude U)).mpr h0
    omega
  obtain ⟨x, hx, hx0⟩ := minimal_head _ hv
  refine ⟨x, ?_, hx0⟩
  rcases he : minimalBigEndian (b.magnitude U) with _ | ⟨y, ys⟩
  · rw [he] at hx
    cases hx
  · rw [he] at hx
    simpa using hx

theorem C3_returned_count_is_minimal_length_witness :
    (32 = 32 ∨ 32 = 64) ∧ Canonical 32 ⟨false, [7, 256]⟩ ∧
      (minimalBigEndian (BigInt.magnitude 32 ⟨false, [7, 256]⟩)).length ≤
        (List.replicate 6 9).length ∧
      ∃ n buf1, MarshallBigInt 32 ⟨false, [7, 256]⟩ (List.replicate 6 9) = .ok (n, buf1) ∧
        n = (bitLength (BigInt.magnitude 32 ⟨false, [7, 256]⟩) + 7) / 8 ∧
        (n = 0 ↔ BigInt.magnitude 32 ⟨false, [7, 256]⟩ = 0) ∧
        (0 < n → ∃ v, buf1.head? = some v ∧ v ≠ 0) :=
  ⟨Or.inl rfl, by decide, by simp [minimalBigEndian, BigInt.magnitude, wordsValue],
    C3_returned_count_is_minimal_length 32 (Or.inl rfl) ⟨false, [7, 256]⟩ (by decide)
      (List.replicate 6 9) (by simp [minimalBigEndian, BigInt.magnitude, wordsValue])⟩

/-- C4: for every canonical magnitude and every buffer with `len(buf) >= MaxByteLen(m)`,
the call returns some `n`, every byte `buf[i]` with `i >= n` is as before the call, and
`len(buf)` is unchanged. -/
theorem C4_bytes_beyond_count_untouched (U : Nat) (hU : U = 32 ∨ U = 64) (b : BigInt)
    (hc : Canonical U b) (buf : List Nat) (hbuf : MaxByteLen U b ≤ buf.length) :
    ∃ n buf1, MarshallBigInt U b buf = .ok (n, buf1) ∧ buf1.length = buf.length ∧
      ∀ i, n ≤ i → buf1[i]? = buf[i]? := by
  have hle := Nat.le_trans (minimal_length_le U hU b hc) hbuf
  refine ⟨_, _, (MarshallBigInt_eq U hU b hc buf).trans (written_ok _ buf hle), ?_, ?_⟩
  · rw [List.length_append, List.length_drop]
    omega
  · intro i hi
    rw [List.getElem?_append_right hi, List.getElem?_drop]
    congr 1
    omega

theorem C4_bytes_beyond_count_untouched_witness :
    (64 = 32 ∨ 64 = 64) ∧ Canonical 64 ⟨false, [1, 2, 3]⟩ ∧
      MaxByteLen 64 ⟨false, [1, 2, 3]⟩ ≤ (List.replicate 30 255).length ∧
      ∃ n buf1, MarshallBigInt 64 ⟨false, [1, 2, 3]⟩ (List.replicate 30 255) = .ok (n, buf1) ∧
        buf1.length = (List.replicate 30 255).length ∧
        ∀ i, n ≤ i → buf1[i]? = (List.replicate 30 255)[i]? :=
  ⟨Or.inr rfl, by decide, by decide,
    C4_bytes_beyond_count_untouched 64 (Or.inr rfl) ⟨false, [1, 2, 3]⟩ (by decide)
      (List.replicate 30 255) (by decide)⟩

/-- C5, as stated, fails: `utils.go` has no `BufferTooSmall` error.  With the 16-byte
value `[5, 2^63+7]` and a 10-byte buffer on a 64-bit platform the buffer is too small,
yet the call hands no error result to its caller: it stores the first ten bytes of the
encoding over the whole buffer and then ends in the runtime panic
`index out of range [10] with length 10`. -/
theorem C5_no_BufferTooSmall_counterexample :
    (List.replicate 10 170).length <
        (minimalBigEndian (BigInt.magnitude 64 ⟨false, [5, 2 ^ 63 + 7]⟩)).length ∧
      MarshallBigInt 64 ⟨false, [5, 2 ^ 63 + 7]⟩ (List.replicate 10 170) =
        .error ⟨10, [128, 0, 0, 0, 0, 0, 0, 7, 0, 0]⟩ ∧
      returnedError (MarshallBigInt 64 ⟨false, [5, 2 ^ 63 + 7]⟩ (List.replicate 10 170)) ≠
        some MarshalError.BufferTooSmall ∧
      ¬ (returnedError (MarshallBigInt 64 ⟨false, [5, 2 ^ 63 + 7]⟩ (List.replicate 10 170)) =
          some MarshalError.BufferTooSmall ↔
        (List.replicate 10 170).length <
          (minimalBigEndian (BigInt.magnitude 64 ⟨false, [5, 2 ^ 63 + 7]⟩)).length) := by
  have hlen : (List.replicate 10 170).length <
      (minimalBigEndian (BigInt.magnitude 64 ⟨false, [5, 2 ^ 63 + 7]⟩)).length := by
    simp [minimalBigEndian, BigInt.magnitude, wordsValue]
  have hrun : MarshallBigInt 64 ⟨false, [5, 2 ^ 63 + 7]⟩ (List.replicate 10 170) =
      .error ⟨10, [128, 0, 0, 0, 0, 0, 0, 7, 0, 0]⟩ := rfl
  have hne : returnedError (MarshallBigInt 64 ⟨false, [5, 2 ^ 63 + 7]⟩ (List.replicate 10 170)) ≠
      some MarshalError.BufferTooSmall := by
    rw [hrun]
    intro h
    cases h
  exact ⟨hlen, hrun, hne, fun h => hne (h.mpr hlen)⟩

/-- C5, amended: `MarshallBigInt` returns only the count and never an error result.  For
every canonical magnitude and every buffer the call ends in the Go runtime panic
`index out of range` if and only if `len(buf)` is smaller than the minimal big-endian
byte length of the value.  The panic is raised by the store at index `len(buf)`, after
the first `len(buf)` bytes of the encoding have been stored; the buffer keeps its length,
so nothing is written outside it.  Otherwise the call returns the count. -/
theorem C5_panics_iff_buffer_too_small (U : Nat) (hU : U = 32 ∨ U = 64) (b : BigInt)
    (hc : Canonical U b) (buf : List Nat) :
    returnedError (MarshallBigInt U b buf) = none ∧
      ((∃ p, MarshallBigInt U b buf = .error p) ↔
        buf.length < (minimalBigEndian (b.magnitude U)).length) ∧
      (∀ p, MarshallBigInt U b buf = .error p →
        p.index = buf.length ∧ p.buf.length = buf.length ∧
          p.buf = (minimalBigEndian (b.magnitude U)).take buf.length) ∧
      (¬ buf.length < (minimalBigEndian (b.magnitude U)).length →
        ∃ n buf1, MarshallBigInt U b buf = .ok (n, buf1)) := by
  have heq := MarshallBigInt_eq U hU b hc buf
  have hnone : returnedError (MarshallBigInt U b buf) = none := by
    cases MarshallBigInt U b buf <;> rfl
  refine ⟨hnone, ?_⟩
  by_cases hlt : buf.length < (minimalBigEndian (b.magnitude U)).length
  · have herr := heq.trans (written_error _ buf hlt)
    refine ⟨⟨fun _ => hlt, fun _ => ⟨_, herr⟩⟩, ?_, fun h => absurd hlt h⟩
    intro p hp
    rw [herr] at hp
    cases hp
    refine ⟨rfl, ?_, rfl⟩
    rw [List.length_take]
    omega
  · have hok := heq.trans (written_ok _ buf (Nat.not_lt.mp hlt))
    refine ⟨⟨?_, fun h => absurd h hlt⟩, ?_, fun _ => ⟨_, _, hok⟩⟩
    · rintro ⟨p, hp⟩
      rw [hok] at hp
      cases hp
    · intro p hp
      rw [hok] at hp
      cases hp

theorem C5_panics_iff_buffer_too_small_witness :
    (32 = 32 ∨ 32 = 64) ∧ Canonical 32 ⟨false, [7, 256]⟩ ∧
      (returnedError (MarshallBigInt 32 ⟨false, [7, 256]⟩ (List.replicate 3 170)) = none ∧
        ((∃ p, MarshallBigInt 32 ⟨false, [7, 256]⟩ (List.replicate 3 170) = .error p) ↔
          (List.replicate 3 170).length <
            (minimalBigEndian (BigInt.magnitude 32 ⟨false, [7, 256]⟩)).length) ∧
        (∀ p, MarshallBigInt 32 ⟨false, [7, 256]⟩ (List.replicate 3 170) = .error p →
          p.index = (List.replicate 3 170).length ∧
            p.buf.length = (List.replicate 3 170).length ∧
            p.buf = (minimalBigEndian (BigInt.magnitude 32 ⟨false, [7, 256]⟩)).take
              (List.replicate 3 170).length) ∧
        (¬ (List.replicate 3 170).length <
            (minimalBigEndian (BigInt.magnitude 32 ⟨false, [7, 256]⟩)).length →
          ∃ n buf1, MarshallBigInt 32 ⟨false, [7, 256]⟩ (List.replicate 3 170) =
            .ok (n, buf1))) :=
  ⟨Or.inl rfl, by decide,
    C5_panics_iff_buffer_too_small 32 (Or.inl rfl) ⟨false, [7, 256]⟩ (by decide)
      (List.replicate 3 170)⟩

/-- C6: for every canonical magnitude and every buffer with `len(buf) = MaxByteLen(m)`
exactly, every store of `MarshallBigInt` is in bounds: the call returns, without an
index-out-of-range panic, a count that is at most `len(buf)`. -/
theorem C6_MaxByteLen_buffer_suffices (U : Nat) (hU : U = 32 ∨ U = 64) (b : BigInt)
    (hc : Canonical U b) (buf : List Nat) (hbuf : buf.length = MaxByteLen U b) :
    (∃ n buf1, MarshallBigInt U b buf = .ok (n, buf1) ∧ n ≤ buf.length) ∧
      ∀ p, MarshallBigInt U b buf ≠ .error p := by
  have hle : (minimalBigEndian (b.magnitude U)).length ≤ buf.length :=
    hbuf ▸ minimal_length_le U hU b hc
  have hok := (MarshallBigInt_eq U hU b hc buf).trans (written_ok _ buf hle)
  refine ⟨⟨_, _, hok, hle⟩, ?_⟩
  intro p hp
  rw [hok] at hp
  cases hp

theorem C6_MaxByteLen_buffer_suffices_witness :
    (64 = 32 ∨ 64 = 64) ∧ Canonical 64 ⟨false, [0, 1]⟩ ∧
      (List.replicate 16 0).length = MaxByteLen 64 ⟨false, [0, 1]⟩ ∧
      ((∃ n buf1, MarshallBigInt 64 ⟨false, [0, 1]⟩ (List.replicate 16 0) = .ok (n, buf1) ∧
          n ≤ (List.replicate 16 0).length) ∧
        ∀ p, MarshallBigInt 64 ⟨false, [0, 1]⟩ (List.replicate 16 0) ≠ .error p) :=
  ⟨Or.inr rfl, by decide, by decide,
    C6_MaxByteLen_buffer_suffices 64 (Or.inr rfl) ⟨false, [0, 1]⟩ (by decide)
      (List.replicate 16 0) (by decide)⟩

/-- C7: `MaxByteLen(m)` is `wordCount(m) * (W/8)`, and for every canonical magnitude and
every buffer that can hold the encoding the count `n` returned by `MarshallBigInt`
satisfies `0 <= MaxByteLen(m) - n <= W/8 - 1`: the estimate is never too small and is
too large by at most `W/8 - 1` bytes. -/
theorem C7_MaxByteLen_overestimate_bound (U : Nat) (hU : U = 32 ∨ U = 64) (b : BigInt)
    (hc : Canonical U b) (buf : List Nat)
    (hbuf : (minimalBigEndian (b.magnitude U)).length ≤ buf.length) :
    MaxByteLen U b = b.Bits.length * (U / 8) ∧
      ∃ n buf1, MarshallBigInt U b buf = .ok (n, buf1) ∧
        n ≤ MaxByteLen U b ∧ MaxByteLen U b - n ≤ U / 8 - 1 := by
  refine ⟨rfl, _, _, (MarshallBigInt_eq U hU b hc buf).trans (written_ok _ buf hbuf),
    minimal_length_le U hU b hc, ?_⟩
  by_cases hne : b.Bits.length = 0
  · simp [MaxByteLen, hne]
  · have := minimal_length_ge U hU b hc hne
    omega

theorem C7_MaxByteLen_overestimate_bound_witness :
    (64 = 32 ∨ 64 = 64) ∧ Canonical 64 ⟨false, [9, 1]⟩ ∧
      (minimalBigEndian (BigInt.magnitude 64 ⟨false, [9, 1]⟩)).length ≤
        (List.replicate 9 0).length ∧
      (MaxByteLen 64 ⟨false, [9, 1]⟩ = (BigInt.Bits ⟨false, [9, 1]⟩).length * (64 / 8) ∧
        ∃ n buf1, MarshallBigInt 64 ⟨false, [9, 1]⟩ (List.replicate 9 0) = .ok (n, buf1) ∧
          n ≤ MaxByteLen 64 ⟨false, [9, 1]⟩ ∧ MaxByteLen 64 ⟨false, [9, 1]⟩ - n ≤ 64 / 8 - 1) :=
  ⟨Or.inr rfl, by decide, by simp [minimalBigEndian, BigInt.magnitude, wordsValue],
    C7_MaxByteLen_overestimate_bound 64 (Or.inr rfl) ⟨false, [9, 1]⟩ (by decide)
      (List.replicate 9 0) (by simp [minimalBigEndian, BigInt.magnitude, wordsValue])⟩

/-- C8, as stated, fails at zero: for the empty magnitude `MarshallBigInt` returns `0`,
which is `MaxByteLen`, although there is no most-significant word whose top byte could
be non-zero. -/
theorem C8_zero_counterexample :
    MarshallBigInt 64 ⟨false, []⟩ [] = .ok (0, []) ∧ MaxByteLen 64 ⟨false, []⟩ = 0 ∧
      ¬ topByteNonZero 64 ⟨false, []⟩ ∧
      ¬ ((∃ buf1, MarshallBigInt 64 ⟨false, []⟩ [] = .ok (MaxByteLen 64 ⟨false, []⟩, buf1)) ↔
        topByteNonZero 64 ⟨false, []⟩) := by
  have hno : ¬ topByteNonZero 64 ⟨false, []⟩ := by
    rintro ⟨d, hd, _⟩
    cases hd
  exact ⟨rfl, rfl, hno, fun h => hno (h.mp ⟨[], rfl⟩)⟩

/-- C8, amended: for every canonical magnitude, zero included, and every buffer that
can hold the encoding, the count returned by `MarshallBigInt` equals `MaxByteLen(m)` if
and only if `m` is zero or the top byte of its most-significant word is non-zero. -/
theorem C8_count_eq_MaxByteLen_iff_top_byte (U : Nat) (hU : U = 32 ∨ U = 64) (b : BigInt)
    (hc : Canonical U b) (buf : List Nat)
    (hbuf : (minimalBigEndian (b.magnitude U)).length ≤ buf.length) :
    ∃ n buf1, MarshallBigInt U b buf = .ok (n, buf1) ∧
      (n = MaxByteLen U b ↔ (b.Bits = [] ∨ topByteNonZero U b)) := by
  refine ⟨_, _, (MarshallBigInt_eq U hU b hc buf).trans (written_ok _ buf hbuf), ?_⟩
  by_cases hne : b.Bits.length = 0
  · have hnil : b.Bits = [] := List.length_eq_zero.mp hne
    have hmax : MaxByteLen U b = 0 := by simp [MaxByteLen, hne]
    have hle := minimal_length_le U hU b hc
    constructor
    · intro _
      exact Or.inl hnil
    · intro _
      omega
  · rw [minimal_length_eq_iff U hU b hc hne]
    constructor
    · intro h
      exact Or.inr h
    · rintro (h | h)
      · exact absurd (by rw [h]; rfl) hne
      · exact h

theorem C8_count_eq_MaxByteLen_iff_top_byte_witness :
    (64 = 32 ∨ 64 = 64) ∧ Canonical 64 ⟨false, [3, 2 ^ 60]⟩ ∧
      (minimalBigEndian (BigInt.magnitude 64 ⟨false, [3, 2 ^ 60]⟩)).length ≤
        (List.replicate 16 0).length ∧
      ∃ n buf1, MarshallBigInt 64 ⟨false, [3, 2 ^ 60]⟩ (List.replicate 16 0) = .ok (n, buf1) ∧
        (n = MaxByteLen 64 ⟨false, [3, 2 ^ 60]⟩ ↔
          (BigInt.Bits ⟨false, [3, 2 ^ 60]⟩ = [] ∨ topByteNonZero 64 ⟨false, [3, 2 ^ 60]⟩)) :=
  ⟨Or.inr rfl, by decide,
    by simp [minimalBigEndian, BigInt.magnitude, wordsValue],
    C8_count_eq_MaxByteLen_iff_top_byte 64 (Or.inr rfl) ⟨false, [3, 2 ^ 60]⟩ (by decide)
      (List.replicate 16 0)
      (by simp [minimalBigEndian, BigInt.magnitude, wordsValue])⟩

/-- C9: the specializations agree with the generic marshaller.  For 64-bit words
`marshallBigint64bit` and `marshallBigintGeneric`, and for 32-bit words
`marshallBigint32bit` and `marshallBigintGeneric`, return the same count and leave the
same buffer, for every canonical magnitude and every buffer of length at least
`MaxByteLen`. -/
theorem C9_specializations_agree (b : BigInt) (buf : List Nat) :
    (Canonical 64 b → MaxByteLen 64 b ≤ buf.length →
        ∃ n buf1, marshallBigint64bit b buf = .ok (n, buf1) ∧
          marshallBigintGeneric (_S 64) b buf = .ok (n, buf1)) ∧
      (Canonical 32 b → MaxByteLen 32 b ≤ buf.length →
        ∃ n buf1, marshallBigint32bit b buf = .ok (n, buf1) ∧
          marshallBigintGeneric (_S 32) b buf = .ok (n, buf1)) := by
  constructor
  · intro hc hbuf
    have hle := Nat.le_trans (minimal_length_le 64 (Or.inr rfl) b hc) hbuf
    exact ⟨_, _, (MarshallBigInt_eq 64 (Or.inr rfl) b hc buf).trans (written_ok _ buf hle),
      (marshallBigintGeneric_written 64 (Or.inr rfl) b hc buf).trans (written_ok _ buf hle)⟩
  · intro hc hbuf
    have hle := Nat.le_trans (minimal_length_le 32 (Or.inl rfl) b hc) hbuf
    exact ⟨_, _, (MarshallBigInt_eq 32 (Or.inl rfl) b hc buf).trans (written_ok _ buf hle),
      (marshallBigintGeneric_written 32 (Or.inl rfl) b hc buf).trans (written_ok _ buf hle)⟩

theorem C9_specializations_agree_witness :
    Canonical 64 ⟨false, [2 ^ 31, 77]⟩ ∧
      MaxByteLen 64 ⟨false, [2 ^ 31, 77]⟩ ≤ (List.replicate 20 1).length ∧
      Canonical 32 ⟨false, [2 ^ 31, 77]⟩ ∧
      MaxByteLen 32 ⟨false, [2 ^ 31, 77]⟩ ≤ (List.replicate 20 1).length ∧
      (∃ n buf1, marshallBigint64bit ⟨false, [2 ^ 31, 77]⟩ (List.replicate 20 1) = .ok (n, buf1) ∧
        marshallBigintGeneric (_S 64) ⟨false, [2 ^ 31, 77]⟩ (List.replicate 20 1) =
          .ok (n, buf1)) ∧
      (∃ n buf1, marshallBigint32bit ⟨false, [2 ^ 31, 77]⟩ (List.replicate 20 1) = .ok (n, buf1) ∧
        marshallBigintGeneric (_S 32) ⟨false, [2 ^ 31, 77]⟩ (List.replicate 20 1) =
          .ok (n, buf1)) :=
  ⟨by decide, by decide, by decide, by decide,
    (C9_specializations_agree ⟨false, [2 ^ 31, 77]⟩ (List.replicate 20 1)).1
      (by decide) (by decide),
    (C9_specializations_agree ⟨false, [2 ^ 31, 77]⟩ (List.replicate 20 1)).2
      (by decide) (by decide)⟩

/-- C10: `U256` is a total function and is idempotent: applying it twice leaves the same
sign, the same word sequence and hence the same value as applying it once. -/
theorem C10_U256_idempotent (U : Nat) (x : BigInt) :
    U256 U (U256 U x) = U256 U x ∧
      (U256 U (U256 U x)).toInt U = (U256 U x).toInt U := by
  have h : U256 U (U256 U x) = U256 U x := by
    unfold U256
    split
    · exact u256_64bit_idem x
    · split
      · exact u256_32bit_idem x
      · exact u256_generic_idem U x
  exact ⟨h, by rw [h]⟩

/-! ## Normalisation and the value of a word sequence -/

theorem norm_eq_self (z : List Nat) (h : z.getLast? ≠ some 0) : norm z = z := by
  induction z with
  | nil => rfl
  | cons w ws ih =>
    cases ws with
    | nil =>
      have hw : w ≠ 0 := fun h0 => h (by simp [h0])
      simp [norm, hw]
    | cons r rs =>
      have h2 : (r :: rs).getLast? ≠ some 0 := by
        rw [List.getLast?_cons_cons] at h
        exact h
      rw [norm, ih h2]

theorem norm_getLast (z : List Nat) : (norm z).getLast? ≠ some 0 := by
  induction z with
  | nil => simp [norm]
  | cons w ws ih =>
    rw [norm]
    cases h : norm ws with
    | nil =>
      simp only []
      split
      · simp
      · rename_i hw
        simpa using hw
    | cons r rs =>
      rw [h] at ih
      simp only []
      rw [List.getLast?_cons_cons]
      exact ih

theorem norm_mem (z : List Nat) : ∀ w ∈ norm z, w ∈ z := by
  induction z with
  | nil => simp [norm]
  | cons x xs ih =>
    intro w hw
    rw [norm] at hw
    cases h : norm xs with
    | nil =>
      rw [h] at hw
      simp only [] at hw
      split at hw
      · cases hw
      · simp only [List.mem_singleton] at hw
        rw [hw]
        exact List.mem_cons_self x xs
    | cons r rs =>
      rw [h] at hw ih
      simp only [] at hw
      rcases List.mem_cons.mp hw with rfl | hw2
      · exact List.mem_cons_self _ xs
      · exact List.mem_cons_of_mem x (ih w hw2)

theorem wordsValue_eq_ofDigits (W : Nat) (z : List Nat) :
    wordsValue W z = Nat.ofDigits (2 ^ W) z := by
  induction z with
  | nil => rfl
  | cons w ws ih => rw [wordsValue, Nat.ofDigits_cons, ih]

theorem wordsValue_lt (W : Nat) (hW : 0 < W) (z : List Nat) (hz : ∀ w ∈ z, w < 2 ^ W) :
    wordsValue W z < 2 ^ (W * z.length) := by
  rw [wordsValue_eq_ofDigits, pow_mul]
  exact Nat.ofDigits_lt_base_pow_length (Nat.one_lt_two_pow (Nat.pos_iff_ne_zero.mp hW)) hz

theorem wordsValue_append (W : Nat) (l1 l2 : List Nat) :
    wordsValue W (l1 ++ l2) = wordsValue W l1 + 2 ^ (W * l1.length) * wordsValue W l2 := by
  rw [wordsValue_eq_ofDigits, wordsValue_eq_ofDigits, wordsValue_eq_ofDigits,
    Nat.ofDigits_append, pow_mul]

theorem wordsValue_drop (W : Nat) (hW : 0 < W) (z : List Nat) (hz : ∀ w ∈ z, w < 2 ^ W)
    (k : Nat) (hk : k ≤ z.length) :
    wordsValue W (z.drop k) = wordsValue W z / 2 ^ (W * k) := by
  have hsplit := wordsValue_append W (z.take k) (z.drop k)
  rw [List.take_append_drop, List.length_take, Nat.min_eq_left hk] at hsplit
  have hlt : wordsValue W (z.take k) < 2 ^ (W * k) := by
    have h := wordsValue_lt W hW (z.take k) (fun w hw => hz w (List.mem_of_mem_take hw))
    rwa [List.length_take, Nat.min_eq_left hk] at h
  rw [hsplit, Nat.add_mul_div_left _ _ (Nat.two_pow_pos _), Nat.div_eq_of_lt hlt, Nat.zero_add]

theorem wordsValue_ge (W : Nat) (z : List Nat) (hne : z ≠ []) (hl : z.getLast? ≠ some 0) :
    2 ^ (W * (z.length - 1)) ≤ wordsValue W z := by
  obtain ⟨d, hd⟩ : ∃ d, z.getLast? = some d := by
    cases h : z.getLast? with
    | none => exact absurd (List.getLast?_eq_none_iff.mp h) hne
    | some d => exact ⟨d, rfl⟩
  obtain ⟨ys, rfl⟩ := List.getLast?_eq_some_iff.mp hd
  have hd0 : d ≠ 0 := fun h0 => hl (by rw [hd, h0])
  rw [wordsValue_append, List.length_append, List.length_singleton, Nat.add_sub_cancel]
  have h1 : wordsValue W [d] = d := by simp [wordsValue]
  rw [h1]
  calc 2 ^ (W * ys.length) = 2 ^ (W * ys.length) * 1 := (Nat.mul_one _).symm
    _ ≤ 2 ^ (W * ys.length) * d := Nat.mul_le_mul_left _ (Nat.pos_of_ne_zero hd0)
    _ ≤ wordsValue W ys + 2 ^ (W * ys.length) * d := Nat.le_add_left _ _

theorem canonical_value_lt_iff (W : Nat) (hW : 0 < W) (b : BigInt) (hc : Canonical W b)
    (n : Nat) : b.magnitude W < 2 ^ (W * n) ↔ b.Bits.length ≤ n := by
  constructor
  · intro hlt
    by_contra hgt
    have hne : b.abs ≠ [] := by
      intro h0
      apply hgt
      show b.abs.length ≤ n
      rw [h0]
      exact Nat.zero_le n
    have hge := wordsValue_ge W b.abs hne hc.2
    have hle : 2 ^ (W * n) ≤ 2 ^ (W * (b.abs.length - 1)) := by
      apply Nat.pow_le_pow_right (by norm_num)
      apply Nat.mul_le_mul_left
      have : ¬ b.abs.length ≤ n := hgt
      omega
    exact absurd hlt (Nat.not_lt.mpr (Nat.le_trans hle hge))
  · intro hle
    have h1 := wordsValue_lt W hW b.abs hc.1
    exact Nat.lt_of_lt_of_le h1
      (Nat.pow_le_pow_right (by norm_num) (Nat.mul_le_mul_left W hle))

theorem canonical_keepLast (W n : Nat) (x : BigInt) (hc : Canonical W x) :
    Canonical W (if x.Bits.length > n then x.SetBits (x.Bits.drop (x.Bits.length - n)) else x) := by
  split
  · refine ⟨?_, norm_getLast _⟩
    intro w hw
    exact hc.1 w (List.mem_of_mem_drop (norm_mem _ w hw))
  · exact hc

theorem canonical_U256 (U : Nat) (x : BigInt) (hc : Canonical U x) :
    Canonical U (U256 U x) := by
  unfold U256
  split
  · exact canonical_keepLast U 4 x hc
  · split
    · exact canonical_keepLast U 8 x hc
    · exact canonical_keepLast U (256 / _S U) x hc

theorem keepLast_eq_drop (W n : Nat) (x : BigInt) (hc : Canonical W x) (hn : 0 < n)
    (hlen : x.Bits.length > n) :
    (if x.Bits.length > n then x.SetBits (x.Bits.drop (x.Bits.length - n)) else x) =
      ⟨false, x.Bits.drop (x.Bits.length - n)⟩ := by
  rw [if_pos hlen]
  have hlast : (x.Bits.drop (x.Bits.length - n)).getLast? ≠ some 0 := by
    rw [List.getLast?_drop, if_neg (by omega)]
    exact hc.2
  show BigInt.mk false (norm _) = _
  rw [norm_eq_self _ hlast]

theorem U256_length_le (x : BigInt) : (U256 64 x).Bits.length ≤ 4 := by
  show (if x.Bits.length > 4 then x.SetBits (x.Bits.drop (x.Bits.length - 4)) else x).Bits.length ≤ 4
  split
  · have h1 := norm_length_le (x.Bits.drop (x.Bits.length - 4))
    rw [List.length_drop] at h1
    show (norm (x.Bits.drop (x.Bits.length - 4))).length ≤ 4
    omega
  · omega

theorem U256_unchanged (U : Nat) (hU : U = 32 ∨ U = 64) (x : BigInt)
    (hlen : x.Bits.length ≤ 256 / U) : U256 U x = x := by
  rcases hU with rfl | rfl
  · show (if x.Bits.length > 8 then x.SetBits (x.Bits.drop (x.Bits.length - 8)) else x) = x
    rw [if_neg (Nat.not_lt.mpr hlen)]
  · show (if x.Bits.length > 4 then x.SetBits (x.Bits.drop (x.Bits.length - 4)) else x) = x
    rw [if_neg (Nat.not_lt.mpr hlen)]

theorem U256_eq_drop (U : Nat) (hU : U = 32 ∨ U = 64) (x : BigInt) (hc : Canonical U x)
    (hlen : x.Bits.length > 256 / U) :
    U256 U x = ⟨false, x.Bits.drop (x.Bits.length - 256 / U)⟩ := by
  rcases hU with rfl | rfl
  · exact keepLast_eq_drop 32 8 x hc (by norm_num) hlen
  · exact keepLast_eq_drop 64 4 x hc (by norm_num) hlen

/-! ## Properties of the truncation and of the byte layout -/

/-- C11: on a 32- or 64-bit platform, a canonical `x` has at most `256/W` words exactly
when its value is below `2^256`, and for such `x` the call `U256(x)` leaves `x`
unchanged.  In particular `2^256 - 1` is left unchanged and then marshals to 32 bytes
that are all `0xFF`. -/
theorem C11_U256_unchanged_below_two_pow_256 (U : Nat) (hU : U = 32 ∨ U = 64) (x : BigInt)
    (hc : Canonical U x) :
    (x.Bits.length ≤ 256 / U ↔ x.magnitude U < 2 ^ 256) ∧
      (x.Bits.length ≤ 256 / U → U256 U x = x) ∧
      (x.magnitude U < 2 ^ 256 → U256 U x = x) ∧
      BigInt.magnitude 64 ⟨false, List.replicate 4 (2 ^ 64 - 1)⟩ = 2 ^ 256 - 1 ∧
      U256 64 ⟨false, List.replicate 4 (2 ^ 64 - 1)⟩ = ⟨false, List.replicate 4 (2 ^ 64 - 1)⟩ ∧
      MarshallBigInt 64 (U256 64 ⟨false, List.replicate 4 (2 ^ 64 - 1)⟩) (List.replicate 32 0) =
        .ok (32, List.replicate 32 255) ∧
      BigInt.magnitude 32 ⟨false, List.replicate 8 (2 ^ 32 - 1)⟩ = 2 ^ 256 - 1 ∧
      U256 32 ⟨false, List.replicate 8 (2 ^ 32 - 1)⟩ = ⟨false, List.replicate 8 (2 ^ 32 - 1)⟩ ∧
      MarshallBigInt 32 (U256 32 ⟨false, List.replicate 8 (2 ^ 32 - 1)⟩) (List.replicate 32 0) =
        .ok (32, List.replicate 32 255) := by
  have hiff : x.Bits.length ≤ 256 / U ↔ x.magnitude U < 2 ^ 256 := by
    rcases hU with rfl | rfl
    · exact (canonical_value_lt_iff 32 (by norm_num) x hc 8).symm
    · exact (canonical_value_lt_iff 64 (by norm_num) x hc 4).symm
  refine ⟨hiff, U256_unchanged U hU x, fun h => U256_unchanged U hU x (hiff.mpr h),
    by decide, by decide, rfl, by decide, by decide, rfl⟩

theorem C11_U256_unchanged_below_two_pow_256_witness :
    (64 = 32 ∨ 64 = 64) ∧ Canonical 64 ⟨false, [7, 0, 0, 9]⟩ ∧
      (BigInt.Bits ⟨false, [7, 0, 0, 9]⟩).length ≤ 256 / 64 ∧
      BigInt.magnitude 64 ⟨false, [7, 0, 0, 9]⟩ < 2 ^ 256 ∧
      U256 64 ⟨false, [7, 0, 0, 9]⟩ = ⟨false, [7, 0, 0, 9]⟩ :=
  ⟨Or.inr rfl, by decide, by decide, by decide,
    (C11_U256_unchanged_below_two_pow_256 64 (Or.inr rfl) ⟨false, [7, 0, 0, 9]⟩
      (by decide)).2.1 (by decide)⟩

/-- C12: on a 32- or 64-bit platform, for every canonical magnitude with more than
`wordsFor256 = 256/W` words, the word sequence after `U256` is a contiguous sub-sequence
of the original one (its last `wordsFor256` words) and has exactly `wordsFor256` words. -/
theorem C12_U256_keeps_contiguous_words (U : Nat) (hU : U = 32 ∨ U = 64) (x : BigInt)
    (hc : Canonical U x) (hlen : x.Bits.length > 256 / U) :
    (U256 U x).Bits.length = 256 / U ∧
      (U256 U x).Bits = x.Bits.drop (x.Bits.length - 256 / U) ∧
      ∃ pre post, x.Bits = pre ++ (U256 U x).Bits ++ post := by
  have h := U256_eq_drop U hU x hc hlen
  have hbits : (U256 U x).Bits = x.Bits.drop (x.Bits.length - 256 / U) := by rw [h]; rfl
  refine ⟨?_, hbits, x.Bits.take (x.Bits.length - 256 / U), [], ?_⟩
  · rw [hbits, List.length_drop]
    exact Nat.sub_sub_self (Nat.le_of_lt hlen)
  · rw [hbits, List.append_nil, List.take_append_drop]

theorem C12_U256_keeps_contiguous_words_witness :
    (64 = 32 ∨ 64 = 64) ∧ Canonical 64 ⟨false, [1, 2, 3, 4, 5, 6]⟩ ∧
      (BigInt.Bits ⟨false, [1, 2, 3, 4, 5, 6]⟩).length > 256 / 64 ∧
      ((U256 64 ⟨false, [1, 2, 3, 4, 5, 6]⟩).Bits.length = 256 / 64 ∧
        (U256 64 ⟨false, [1, 2, 3, 4, 5, 6]⟩).Bits =
          (BigInt.Bits ⟨false, [1, 2, 3, 4, 5, 6]⟩).drop
            ((BigInt.Bits ⟨false, [1, 2, 3, 4, 5, 6]⟩).length - 256 / 64) ∧
        ∃ pre post, BigInt.Bits ⟨false, [1, 2, 3, 4, 5, 6]⟩ =
          pre ++ (U256 64 ⟨false, [1, 2, 3, 4, 5, 6]⟩).Bits ++ post) :=
  ⟨Or.inr rfl, by decide, by decide,
    C12_U256_keeps_contiguous_words 64 (Or.inr rfl) ⟨false, [1, 2, 3, 4, 5, 6]⟩ (by decide)
      (by decide)⟩

/-- C13: evaluation of `u256_generic` against the fixed-width truncators.  With 64-bit
words `_S` is 8 (bytes), so `nWords = 256 / _S` is 32, not 4: a five-word magnitude is
truncated to four words by `u256_64bit` and left with five words by `u256_generic`.  With
32-bit words `nWords` is 64, not 8, and a nine-word magnitude shows the same. -/
theorem C13_u256_generic_keeps_more_words :
    256 / _S 64 = 32 ∧
      u256_generic 64 ⟨false, [0, 0, 0, 0, 1]⟩ = ⟨false, [0, 0, 0, 0, 1]⟩ ∧
      u256_64bit ⟨false, [0, 0, 0, 0, 1]⟩ = ⟨false, [0, 0, 0, 1]⟩ ∧
      u256_generic 64 ⟨false, [0, 0, 0, 0, 1]⟩ ≠ u256_64bit ⟨false, [0, 0, 0, 0, 1]⟩ ∧
      256 / _S 32 = 64 ∧
      u256_generic 32 ⟨false, [0, 0, 0, 0, 0, 0, 0, 0, 1]⟩ =
        ⟨false, [0, 0, 0, 0, 0, 0, 0, 0, 1]⟩ ∧
      u256_32bit ⟨false, [0, 0, 0, 0, 0, 0, 0, 0, 1]⟩ = ⟨false, [0, 0, 0, 0, 0, 0, 0, 1]⟩ ∧
      u256_generic 32 ⟨false, [0, 0, 0, 0, 0, 0, 0, 0, 1]⟩ ≠
        u256_32bit ⟨false, [0, 0, 0, 0, 0, 0, 0, 0, 1]⟩ := by
  refine ⟨by decide, by decide, by decide, by decide, by decide, by decide, by decide,
    by decide⟩

/-- C14: evaluation of `U256` at `b = -1` on a 64-bit platform.  The magnitude has one
word, the branch `len > 4` is not taken and the sign is not touched: the value after the
call is still `-1`, whereas the 256-bit two's complement of `-1` is `2^256 - 1`. -/
theorem C14_U256_at_minus_one :
    BigInt.toInt 64 ⟨true, [1]⟩ = -1 ∧
      U256 64 ⟨true, [1]⟩ = ⟨true, [1]⟩ ∧
      (U256 64 ⟨true, [1]⟩).toInt 64 = -1 ∧
      (-1 : Int) % 2 ^ 256 = 2 ^ 256 - 1 ∧
      (U256 64 ⟨true, [1]⟩).toInt 64 ≠ (-1 : Int) % 2 ^ 256 ∧
      ¬ (0 ≤ (U256 64 ⟨true, [1]⟩).toInt 64) := by
  have hval : (U256 64 ⟨true, [1]⟩).toInt 64 = -1 := by decide
  have hmod : (-1 : Int) % 2 ^ 256 = 2 ^ 256 - 1 := by norm_num
  refine ⟨by decide, by decide, hval, hmod, ?_, ?_⟩
  · rw [hval, hmod]
    norm_num
  · rw [hval]
    norm_num

theorem minimal_eq_layout (U : Nat) (hU : U = 32 ∨ U = 64) (b : BigInt) (hc : Canonical U b)
    (lo : List Nat) (top : Nat) (hz : b.Bits = lo ++ [top]) :
    minimalBigEndian (b.magnitude U) =
      (wordBytes top (U / 8)).dropWhile (fun v => decide (v = 0)) ++
        lo.reverse.flatMap (fun w => wordBytes w (U / 8)) := by
  have hne : ¬ b.Bits.length = 0 := by
    rw [hz]
    simp
  have hlen : b.Bits.length - 1 = lo.length := by
    rw [hz]
    simp
  have htop : b.Bits.getD (b.Bits.length - 1) 0 = top := by
    rw [hlen, hz]
    simp [List.getD_eq_getElem?_getD]
  have htake : b.Bits.take (b.Bits.length - 1) = lo := by
    rw [hlen, hz]
    simp
  have key : ∀ S : Nat, Canonical (8 * S) b →
      minimalBigEndian (wordsValue (8 * S) b.Bits) =
        (wordBytes top S).dropWhile (fun v => decide (v = 0)) ++
          lo.reverse.flatMap (fun w => wordBytes w S) := by
    intro S hcS
    obtain ⟨h0, hlt⟩ := top_word (8 * S) b hcS hne
    rw [← encoding_eq S b.Bits hcS.1, encoding_top S b.Bits hne h0 hlt, htop, htake]
    rfl
  rcases hU with rfl | rfl
  · exact key 4 hc
  · exact key 8 hc

/-- C15: on a 32- or 64-bit platform, for every canonical non-empty magnitude with
most-significant word `top` and lower words `lo` (least significant first) and every
buffer that can hold the encoding, the bytes written by `MarshallBigInt`, and by
`marshallBigintGeneric`, are the `W/8` big-endian bytes of `top` with the leading zero
bytes dropped (later zero bytes kept), followed by all `W/8` big-endian bytes of each
lower word, from the most significant lower word down to the least significant. -/
theorem C15_written_byte_layout (U : Nat) (hU : U = 32 ∨ U = 64) (b : BigInt)
    (hc : Canonical U b) (lo : List Nat) (top : Nat) (hz : b.Bits = lo ++ [top])
    (buf : List Nat) (hbuf : (minimalBigEndian (b.magnitude U)).length ≤ buf.length) :
    ∃ n buf1, MarshallBigInt U b buf = .ok (n, buf1) ∧
      marshallBigintGeneric (_S U) b buf = .ok (n, buf1) ∧
      buf1.take n =
        (wordBytes top (U / 8)).dropWhile (fun v => decide (v = 0)) ++
          lo.reverse.flatMap (fun w => wordBytes w (U / 8)) ∧
      (wordBytes top (U / 8)).length = U / 8 ∧
      ∀ w ∈ lo, (wordBytes w (U / 8)).length = U / 8 := by
  refine ⟨_, _, (MarshallBigInt_eq U hU b hc buf).trans (written_ok _ buf hbuf),
    (marshallBigintGeneric_written U hU b hc buf).trans (written_ok _ buf hbuf), ?_,
    wordBytes_length _ _, fun w _ => wordBytes_length _ _⟩
  rw [List.take_left]
  exact minimal_eq_layout U hU b hc lo top hz

theorem C15_written_byte_layout_witness :
    (64 = 32 ∨ 64 = 64) ∧ Canonical 64 ⟨false, [5, 256, 2 ^ 16]⟩ ∧
      BigInt.Bits ⟨false, [5, 256, 2 ^ 16]⟩ = [5, 256] ++ [2 ^ 16] ∧
      (minimalBigEndian (BigInt.magnitude 64 ⟨false, [5, 256, 2 ^ 16]⟩)).length ≤
        (List.replicate 24 0).length ∧
      ∃ n buf1, MarshallBigInt 64 ⟨false, [5, 256, 2 ^ 16]⟩ (List.replicate 24 0) =
          .ok (n, buf1) ∧
        marshallBigintGeneric (_S 64) ⟨false, [5, 256, 2 ^ 16]⟩ (List.replicate 24 0) =
          .ok (n, buf1) ∧
        buf1.take n =
          (wordBytes (2 ^ 16) (64 / 8)).dropWhile (fun v => decide (v = 0)) ++
            [5, 256].reverse.flatMap (fun w => wordBytes w (64 / 8)) ∧
        (wordBytes (2 ^ 16) (64 / 8)).length = 64 / 8 ∧
        ∀ w ∈ [5, 256], (wordBytes w (64 / 8)).length = 64 / 8 :=
  ⟨Or.inr rfl, by decide, rfl,
    by simp [minimalBigEndian, BigInt.magnitude, wordsValue],
    C15_written_byte_layout 64 (Or.inr rfl) ⟨false, [5, 256, 2 ^ 16]⟩ (by decide)
      [5, 256] (2 ^ 16) rfl (List.replicate 24 0)
      (by simp [minimalBigEndian, BigInt.magnitude, wordsValue])⟩

/-- C16: on a 64-bit platform, for every canonical `x`, the value of `x` after `U256(x)`
is strictly less than `2^256`; the word sequence after the call is canonical and has at
most four words. -/
theorem C16_U256_result_below_two_pow_256 (x : BigInt) (hc : Canonical 64 x) :
    (U256 64 x).magnitude 64 < 2 ^ 256 ∧ (U256 64 x).toInt 64 < 2 ^ 256 ∧
      (U256 64 x).Bits.length ≤ 4 ∧ Canonical 64 (U256 64 x) := by
  have hcan := canonical_U256 64 x hc
  have hlen := U256_length_le x
  have hlt : (U256 64 x).magnitude 64 < 2 ^ 256 :=
    (canonical_value_lt_iff 64 (by norm_num) (U256 64 x) hcan 4).mpr hlen
  refine ⟨hlt, ?_, hlen, hcan⟩
  have hcast : ((U256 64 x).magnitude 64 : Int) < 2 ^ 256 := by exact_mod_cast hlt
  unfold BigInt.toInt
  split
  · have hnn : (0 : Int) ≤ ((U256 64 x).magnitude 64 : Int) := Int.ofNat_nonneg _
    have hpos : (0 : Int) < 2 ^ 256 := by norm_num
    omega
  · exact hcast

theorem C16_U256_result_below_two_pow_256_witness :
    Canonical 64 ⟨false, [1, 2, 3, 4, 5, 6, 7]⟩ ∧
      ((U256 64 ⟨false, [1, 2, 3, 4, 5, 6, 7]⟩).magnitude 64 < 2 ^ 256 ∧
        (U256 64 ⟨false, [1, 2, 3, 4, 5, 6, 7]⟩).toInt 64 < 2 ^ 256 ∧
        (U256 64 ⟨false, [1, 2, 3, 4, 5, 6, 7]⟩).Bits.length ≤ 4 ∧
        Canonical 64 (U256 64 ⟨false, [1, 2, 3, 4, 5, 6, 7]⟩)) :=
  ⟨by decide, C16_U256_result_below_two_pow_256 ⟨false, [1, 2, 3, 4, 5, 6, 7]⟩ (by decide)⟩

/-- C17: on a 64-bit platform, for every canonical magnitude `x` with `n > 4` words
(least significant first), `U256` retains the last four words `x[n-4..n)`, the four
most-significant ones, and the resulting value is `floor(x / 2^(64*(n-4)))`. -/
theorem C17_U256_keeps_high_words (x : BigInt) (hc : Canonical 64 x)
    (hlen : x.Bits.length > 4) :
    (U256 64 x).Bits = x.Bits.drop (x.Bits.length - 4) ∧
      (U256 64 x).Bits.length = 4 ∧
      (U256 64 x).magnitude 64 = x.magnitude 64 / 2 ^ (64 * (x.Bits.length - 4)) := by
  have h := U256_eq_drop 64 (Or.inr rfl) x hc hlen
  have hbits : (U256 64 x).Bits = x.Bits.drop (x.Bits.length - 4) := by rw [h]; rfl
  refine ⟨hbits, ?_, ?_⟩
  · rw [hbits, List.length_drop]
    omega
  · show wordsValue 64 (U256 64 x).Bits = _
    rw [hbits]
    exact wordsValue_drop 64 (by norm_num) x.Bits hc.1 _ (Nat.sub_le _ _)

theorem C17_U256_keeps_high_words_witness :
    Canonical 64 ⟨false, [9, 8, 7, 6, 5]⟩ ∧
      (BigInt.Bits ⟨false, [9, 8, 7, 6, 5]⟩).length > 4 ∧
      ((U256 64 ⟨false, [9, 8, 7, 6, 5]⟩).Bits =
          (BigInt.Bits ⟨false, [9, 8, 7, 6, 5]⟩).drop
            ((BigInt.Bits ⟨false, [9, 8, 7, 6, 5]⟩).length - 4) ∧
        (U256 64 ⟨false, [9, 8, 7, 6, 5]⟩).Bits.length = 4 ∧
        (U256 64 ⟨false, [9, 8, 7, 6, 5]⟩).magnitude 64 =
          BigInt.magnitude 64 ⟨false, [9, 8, 7, 6, 5]⟩ /
            2 ^ (64 * ((BigInt.Bits ⟨false, [9, 8, 7, 6, 5]⟩).length - 4))) :=
  ⟨by decide, by decide,
    C17_U256_keeps_high_words ⟨false, [9, 8, 7, 6, 5]⟩ (by decide) (by decide)⟩

/-- C18: on a 64-bit platform, for every canonical `x`, after `U256(x)` a 32-byte buffer
suffices for marshalling: `MaxByteLen(x) <= 32`, and `MarshallBigInt(x, buf)` with
`len(buf) = 32` returns, without an index-out-of-range panic, a count that is at most 32. -/
theorem C18_U256_then_marshal_fits_32_bytes (x : BigInt) (hc : Canonical 64 x)
    (buf : List Nat) (hbuf : buf.length = 32) :
    MaxByteLen 64 (U256 64 x) ≤ 32 ∧
      (∃ n buf1, MarshallBigInt 64 (U256 64 x) buf = .ok (n, buf1) ∧ n ≤ 32) ∧
      ∀ p, MarshallBigInt 64 (U256 64 x) buf ≠ .error p := by
  have hcan := canonical_U256 64 x hc
  have hmax : MaxByteLen 64 (U256 64 x) ≤ 32 := by
    have hlen := U256_length_le x
    show (U256 64 x).Bits.length * 8 ≤ 32
    omega
  have hmin := minimal_length_le 64 (Or.inr rfl) (U256 64 x) hcan
  have hle : (minimalBigEndian ((U256 64 x).magnitude 64)).length ≤ buf.length := by omega
  have hok := (MarshallBigInt_eq 64 (Or.inr rfl) (U256 64 x) hcan buf).trans
    (written_ok _ buf hle)
  refine ⟨hmax, ⟨_, _, hok, by omega⟩, ?_⟩
  intro p hp
  rw [hok] at hp
  cases hp

theorem C18_U256_then_marshal_fits_32_bytes_witness :
    Canonical 64 ⟨false, [1, 2, 3, 4, 5, 2 ^ 63]⟩ ∧ (List.replicate 32 0).length = 32 ∧
      (MaxByteLen 64 (U256 64 ⟨false, [1, 2, 3, 4, 5, 2 ^ 63]⟩) ≤ 32 ∧
        (∃ n buf1, MarshallBigInt 64 (U256 64 ⟨false, [1, 2, 3, 4, 5, 2 ^ 63]⟩)
            (List.replicate 32 0) = .ok (n, buf1) ∧ n ≤ 32) ∧
        ∀ p, MarshallBigInt 64 (U256 64 ⟨false, [1, 2, 3, 4, 5, 2 ^ 63]⟩)
          (List.replicate 32 0) ≠ .error p) :=
  ⟨by decide, by decide,
    C18_U256_then_marshal_fits_32_bytes ⟨false, [1, 2, 3, 4, 5, 2 ^ 63]⟩ (by decide)
      (List.replicate 32 0) (by decide)⟩

end Bigutils
